import Mathlib

/-!
Verification development for the AAF animated-bitmap container format and its
block-level decode/composite pipeline (decoder gfx_aaf_dec.c, format index
gfx_aaf_format.c, widget renderer gfx_draw_anim.c).

The C sources are shallowly embedded: byte buffers become List Nat (each
element a byte value below 256 where the theorems need it), machine integers
become Nat or Int with explicit wrap-around where the C type forces it, and
fallible calls return an explicit error code. Loops are restructured as
structural recursion; where the C loop is not structurally decreasing, an
explicit fuel argument bounds the iteration count and is instantiated so that
it never runs out on the loop of the source.
-/

/-- Embedding of the esp_err_t values that the sources under study return. -/
inductive EspErr where
  | ok
  | fail
  | err_no_mem
  | err_invalid_crc
  | err_invalid_size
deriving DecidableEq

/-!
## Huffman engine (gfx_aaf_dec.c, decode_huffman_data / gfx_aaf_huffman_decode)

The C Node has left/right child pointers, an is_leaf flag and a byte value.
A null pointer becomes Option.none. create_node uses calloc, so a fresh node
has no children, a cleared flag and value 0.
-/

inductive HNode where
  | mk : Option HNode → Option HNode → Bool → Nat → HNode

def HNode.left : HNode → Option HNode
  | .mk l _ _ _ => l

def HNode.right : HNode → Option HNode
  | .mk _ r _ _ => r

def HNode.is_leaf : HNode → Bool
  | .mk _ _ f _ => f

def HNode.value : HNode → Nat
  | .mk _ _ _ v => v

/-- create_node in the C source: calloc yields a node with null children,
is_leaf = 0 and value = 0. -/
def create_node : HNode := .mk none none false 0

/-- Bit path of a code, most significant bit first: the C insertion loop walks
bit = code_len - 1 down to 0 and extracts (code >> bit) & 1. -/
def codePath (len code : Nat) : List Bool :=
  (List.range len).map (fun i => ((code >>> (len - 1 - i)) &&& 1) == 1)

/-- Insertion of one code into the tree, following the bit path from the most
significant bit, creating fresh nodes where a child is null, and marking the
final node as a leaf carrying the byte value (decode_huffman_data, tree
reconstruction loop). -/
def insertCode (t : HNode) (bs : List Bool) (v : Nat) : HNode :=
  match t, bs with
  | .mk l r _ _, [] => .mk l r true v
  | .mk l r f v0, b :: rest =>
    if b then .mk l (some (insertCode (r.getD create_node) rest v)) f v0
    else .mk (some (insertCode (l.getD create_node) rest v)) r f v0

/-- Tree reconstruction from the parsed (value, code length, code bits)
triples, in table order. -/
def buildTree (tbl : List (Nat × Nat × Nat)) : HNode :=
  tbl.foldl (fun t e => insertCode t (codePath e.2.1 e.2.2) e.1) create_node

/-- Parsing of the serialized code table region (after the padding byte):
repeating triples of value (1 byte), code length (1 byte) and
ceil(code_length / 8) big-endian code bytes, folded with shift-or exactly as
the C loop does. The C loop form is while dict_pos < dict_len; on a table
that ends in the middle of a triple the C source reads past the buffer, while
this embedding stops; the two agree on every well-formed table. Fuel bounds
the recursion and is instantiated with the table length, which the loop never
exceeds because every iteration consumes at least two bytes. -/
def parseTriplesF : Nat → List Nat → List (Nat × Nat × Nat)
  | 0, _ => []
  | _ + 1, [] => []
  | _ + 1, [_] => []
  | fuel + 1, v :: len :: rest =>
    let nb := (len + 7) / 8
    let code := (rest.take nb).foldl (fun a b => (a <<< 8) ||| b) 0
    (v, len, code) :: parseTriplesF fuel (rest.drop nb)

def parseTriples (l : List Nat) : List (Nat × Nat × Nat) :=
  parseTriplesF l.length l

/-- Bit with index i of the payload, most significant bit of each byte first:
(data[i / 8] >> (7 - i % 8)) & 1 in the C source. -/
def bitAt (data : List Nat) (i : Nat) : Bool :=
  ((data.getD (i / 8) 0 >>> (7 - i % 8)) &&& 1) == 1

/-- The sequence of payload bits the decode loop visits: bit indices 0 up to
total_bits - 1. -/
def extractBits (data : List Nat) (n : Nat) : List Bool :=
  (List.range n).map (bitAt data)

/-- The bit-consuming decode loop of decode_huffman_data: step to the child
selected by the bit; a null child stops the loop (the flag in the result
turns false); a leaf emits its value and resets to the root. The emitted
bytes are accumulated in order, so the first component is exactly the
output buffer contents and its length is the reported output_len. -/
def decodeBits (root : HNode) : HNode → List Bool → List Nat → List Nat × Bool
  | _, [], acc => (acc, true)
  | cur, b :: bs, acc =>
    match (if b then cur.right else cur.left) with
    | none => (acc, false)
    | some nxt =>
      if nxt.is_leaf then decodeBits root root bs (acc ++ [nxt.value])
      else decodeBits root nxt bs acc

/-- decode_huffman_data: byte 0 of the dictionary is the count of padding bits
in the final payload byte; the remaining dictionary bytes are parsed into the
tree; total bit count is 8 times the payload length minus the padding; then
the bit stream is decoded. The Bool records whether the loop ran to
completion (true) or stopped on a null child (false); in both cases the C
function returns ESP_OK, which its caller treats as success. -/
def decode_huffman_data (data : List Nat) (dict : List Nat) : List Nat × Bool :=
  if data.length = 0 ∨ dict.length = 0 then ([], true)
  else
    let padding := dict.getD 0 0
    let root := buildTree (parseTriples (dict.drop 1))
    let total_bits := data.length * 8 - padding
    decodeBits root root (extractBits data total_bits) []

/-- Dictionary length field of a Huffman block: the C source computes
(buffer[2] << 8) | buffer[1]. -/
def dictLen (buffer : List Nat) : Nat :=
  ((buffer.getD 2 0) <<< 8) ||| (buffer.getD 1 0)

/-- The dictionary slice a Huffman block hands to decode_huffman_data:
dict_len bytes starting at offset 3. -/
def huffDict (buffer : List Nat) : List Nat :=
  (buffer.drop 3).take (dictLen buffer)

/-- The payload slice a Huffman block hands to decode_huffman_data: the bytes
after the dictionary, up to the declared buffer length. -/
def huffPayload (buffer : List Nat) (buflen : Nat) : List Nat :=
  (buffer.drop (3 + dictLen buffer)).take (buflen - 3 - dictLen buffer)

/-- gfx_aaf_huffman_decode: validates the buffer length against the
dictionary length field and the presence of payload bytes, then decodes.
Result components: the returned esp_err_t, the decoded bytes (the output
buffer contents, whose length is the value stored through output_len), and
the completion flag of the bit loop. The C source returns ESP_OK whenever
decode_huffman_data was reached, because that function always returns
ESP_OK, even after stopping on a null child. -/
def gfx_aaf_huffman_decode (buffer : List Nat) (buflen : Nat) :
    EspErr × List Nat × Bool :=
  if buflen < 1 then (.fail, [], true)
  else if buflen < 3 + dictLen buffer then (.fail, [], true)
  else if buflen - 3 - dictLen buffer = 0 then (.fail, [], true)
  else
    let r := decode_huffman_data (huffPayload buffer buflen) (huffDict buffer)
    (.ok, r.1, r.2)

/-!
## RLE decoder (gfx_aaf_dec.c, gfx_aaf_rle_decode)

The loop is embedded with an explicit read trace so that theorems can speak
about which input indices the source dereferences. A read past the supplied
list is modelled by the getD default 0 (the C source would read whatever byte
sits past the buffer); the trace still records the index, which is what the
safety claims are about. Fuel is instantiated with input_len: the loop runs
at most (input_len + 1) / 2 iterations, so that never runs out. -/
def rleLoop (input : List Nat) (input_len output_len : Nat) :
    Nat → Nat → List Nat → List Nat → EspErr × List Nat × List Nat
  | 0, _, out, reads => (.ok, out, reads)
  | fuel + 1, in_pos, out, reads =>
    if in_pos + 1 ≤ input_len then
      let count := input.getD in_pos 0
      let value := input.getD (in_pos + 1) 0
      let reads1 := reads ++ [in_pos, in_pos + 1]
      if output_len < out.length + count then (.fail, out, reads1)
      else
        rleLoop input input_len output_len fuel (in_pos + 2)
          (out ++ List.replicate count value) reads1
    else (.ok, out, reads)

/-- gfx_aaf_rle_decode: expands (count, value) pairs into the output buffer,
failing before any write would exceed output_len. Result components: the
returned esp_err_t, the bytes written to the output buffer in order, and the
trace of input indices read. -/
def gfx_aaf_rle_decode (input : List Nat) (input_len output_len : Nat) :
    EspErr × List Nat × List Nat :=
  rleLoop input input_len output_len input_len 0 [] []

/-!
## Frame header and palette (gfx_aaf_dec.c)
-/

/-- The split-bitmap frame header fields used by the decode and render paths
(gfx_aaf_header_t). The palette holds num_colors entries of 4 raw bytes. -/
structure AafHeader where
  width : Nat
  height : Nat
  blocks : Nat
  block_height : Nat
  bit_depth : Nat
  block_len : List Nat
  palette : List Nat

/-- 16-bit byte swap, as computed by __builtin_bswap16 on a uint16_t. -/
def bswap16 (x : Nat) : Nat :=
  ((x &&& 255) <<< 8) ||| ((x >>> 8) &&& 255)

/-- gfx_aaf_parse_palette: reads the 4-byte palette entry of the index
(blue at offset 0, green at 1, red at 2), packs RGB565 as
((R & 0xF8) << 8) | ((G & 0xFC) << 3) | ((B & 0xF8) >> 3), and byte-swaps
the 16-bit result when swap is requested. -/
def gfx_aaf_parse_palette (header : AafHeader) (index : Nat) (swap : Bool) : Nat :=
  let b := header.palette.getD (index * 4) 0
  let g := header.palette.getD (index * 4 + 1) 0
  let r := header.palette.getD (index * 4 + 2) 0
  let v := (((r &&& 248) <<< 8) ||| ((g &&& 252) <<< 3)) ||| ((b &&& 248) >>> 3)
  if swap then bswap16 v else v

/-!
## Container index (gfx_aaf_format.c)
-/

/-- Little-endian 32-bit read at a byte offset. -/
def readLE32 (data : List Nat) (off : Nat) : Nat :=
  data.getD off 0 + 256 * data.getD (off + 1) 0 + 65536 * data.getD (off + 2) 0
    + 16777216 * data.getD (off + 3) 0

/-- Little-endian 16-bit read at a byte offset. -/
def readLE16 (data : List Nat) (off : Nat) : Nat :=
  data.getD off 0 + 256 * data.getD (off + 1) 0

/-- Interpretation of a 32-bit pattern as the signed int the C source reads
for the frame count. -/
def asInt32 (raw : Nat) : Int :=
  if raw < 2147483648 then (raw : Int) else (raw : Int) - 4294967296

/-- gfx_aaf_format_calc_checksum: sums the bytes of the region into a uint32
accumulator, wrapping at each addition. -/
def gfx_aaf_format_calc_checksum (data : List Nat) (length : Nat) : Nat :=
  ((List.range length).map (fun i => data.getD i 0)).foldl
    (fun a b => (a + b) % 4294967296) 0

/-- One entry of the asset table as the parser materializes it: declared
asset size and the absolute byte offset of the asset within the container
buffer (the C source stores the corresponding pointer). -/
structure AssetEntry where
  asset_size : Nat
  asset_mem : Nat
deriving DecidableEq

/-- The parser context gfx_aaf_format_ctx_t: the materialized entries and the
declared total frame count (a C int, possibly out of range of the list). -/
structure AafCtx where
  entries : List AssetEntry
  total_frames : Int
deriving DecidableEq

/-- Entries materialized by the init loop: entry i has its size read from the
table slot at offset 16 + 8 i and its payload at offset
16 + 8 total + stored offset. -/
def frameEntries (data : List Nat) (total : Nat) : List AssetEntry :=
  (List.range total).map (fun i =>
    { asset_size := readLE32 data (16 + 8 * i)
      asset_mem := 16 + 8 * total + readLE32 data (16 + 8 * i + 4) })

/-- gfx_aaf_format_init: checks the 0x89 magic, the "AAF" format string, the
additive checksum of the stored_len bytes starting at offset 16 against the
stored value, and the 0x5A5A magic in front of every frame payload. Any
failure aborts the whole load with ESP_ERR_INVALID_CRC. -/
def gfx_aaf_format_init (data : List Nat) : Except EspErr AafCtx :=
  if data.getD 0 0 ≠ 137 then .error .err_invalid_crc
  else if ¬(data.getD 1 0 = 65 ∧ data.getD 2 0 = 65 ∧ data.getD 3 0 = 70) then
    .error .err_invalid_crc
  else
    let total_frames := asInt32 (readLE32 data 4)
    let stored_chk := readLE32 data 8
    let stored_len := readLE32 data 12
    if gfx_aaf_format_calc_checksum (data.drop 16) stored_len ≠ stored_chk then
      .error .err_invalid_crc
    else
      let entries := frameEntries data total_frames.toNat
      if entries.all (fun e => readLE16 data e.asset_mem = 23130) then
        .ok { entries := entries, total_frames := total_frames }
      else .error .err_invalid_crc

/-- Read of the entries array at a C int index: an index inside the list
yields the stored entry, any other index is an out-of-bounds access whose
result bytes are unspecified (modelled as a zero entry); the read traces of
the getters record every index dereferenced. -/
def entryAt (ctx : AafCtx) (index : Int) : AssetEntry :=
  if h : 0 ≤ index ∧ index.toNat < ctx.entries.length then
    ctx.entries.get ⟨index.toNat, h.2⟩
  else { asset_size := 0, asset_mem := 0 }

/-- gfx_aaf_format_get_frame_data: guarded only by total_frames > index; on
that condition it dereferences entries[index] and returns the payload
pointer past the 2-byte magic, otherwise NULL. Second component: the entry
indices dereferenced. -/
def gfx_aaf_format_get_frame_data (ctx : AafCtx) (index : Int) :
    Option Nat × List Int :=
  if ctx.total_frames > index then
    (some ((entryAt ctx index).asset_mem + 2), [index])
  else (none, [])

/-- gfx_aaf_format_get_frame_size: same guard; returns asset_size - 2 on
success and -1 otherwise. Second component: the entry indices
dereferenced. -/
def gfx_aaf_format_get_frame_size (ctx : AafCtx) (index : Int) :
    Int × List Int :=
  if ctx.total_frames > index then
    (((entryAt ctx index).asset_size : Int) - 2, [index])
  else (-1, [])

/-!
## Block decoder (gfx_draw_anim.c, gfx_anim_decode_block)

The JPEG decoder is an external collaborator (bytes in, RGB565 pixels out,
honoring the swap flag); it is passed in as an oracle function so that the
dispatch structure of gfx_anim_decode_block can be embedded without modelling
JPEG itself. -/
def JpegDec := Bool → List Nat → Nat → Except EspErr (List Nat)

/-- gfx_anim_decode_block: reads the encoding tag at the block offset and
dispatches. RLE (tag 0) expands directly into the decode buffer of capacity
width * block_height. Huffman (tag 1) decodes into a scratch buffer of that
same capacity with no bound on the writes, then fails if the decoded length
exceeds the capacity, else RLE-expands the scratch bytes. Huffman-direct
(tag 3) decodes straight into the decode buffer (again unbounded) and fails
unless the length is exactly the capacity. JPEG (tag 2) hands the payload to
the external decoder. Any other tag fails. The result is the decode buffer
contents on success. -/
def gfx_anim_decode_block (jpeg : JpegDec) (data : List Nat)
    (offsets : List Nat) (header : AafHeader) (block : Nat)
    (width block_height : Nat) (swap_color : Bool) :
    Except EspErr (List Nat) :=
  let block_data := data.drop (offsets.getD block 0)
  let block_len := header.block_len.getD block 0
  let encoding_type := block_data.getD 0 0
  if encoding_type = 0 then
    let r := gfx_aaf_rle_decode (block_data.drop 1) (block_len - 1)
      (width * block_height)
    match r.1 with
    | .ok => .ok r.2.1
    | _ => .error .fail
  else if encoding_type = 1 then
    let h := gfx_aaf_huffman_decode block_data block_len
    if width * block_height < h.2.1.length then .error .fail
    else
      let r := gfx_aaf_rle_decode h.2.1 h.2.1.length (width * block_height)
      match r.1 with
      | .ok => .ok r.2.1
      | _ => .error .fail
  else if encoding_type = 3 then
    let h := gfx_aaf_huffman_decode block_data block_len
    if h.1 ≠ .ok then .error .fail
    else if h.2.1.length ≠ width * block_height then .error .fail
    else .ok h.2.1
  else if encoding_type = 2 then
    match jpeg swap_color (block_data.drop 1 |>.take (block_len - 1))
        (width * block_height * 2) with
    | .ok px => .ok px
    | .error _ => .error .fail
  else .error .fail

/-!
## Pixel renderers (gfx_draw_anim.c)

The destination buffer is a function from a flat Int pixel index to the
stored 16-bit color; the palette cache is a function from palette index to
the cached uint32 slot (0xFFFFFFFF is the unresolved sentinel set by
gfx_anim_preprocess_frame). -/
structure RenderSt where
  dest : Int → Nat
  cache : Nat → Nat

/-- Write of one destination pixel. -/
def writeDest (s : RenderSt) (i : Int) (v : Nat) : RenderSt :=
  { s with dest := fun j => if j = i then v else s.dest j }

/-- The lazy palette-cache fill: when the slot holds the sentinel, resolve
the color through gfx_aaf_parse_palette and store it; the color actually
used is the uint16 truncation of the slot. -/
def ensureColor (header : AafHeader) (swap_color : Bool) (s : RenderSt)
    (index : Nat) : Nat × RenderSt :=
  if s.cache index = 4294967295 then
    let c := gfx_aaf_parse_palette header index swap_color
    (c % 65536,
      { s with cache := fun j => if j = index then c else s.cache j })
  else (s.cache index % 65536, s)

/-- Body of the 4-bit renderer for one even x position: two palette indices
from the packed byte (high nibble first), primary writes at x and x + 1, and
when mirroring is enabled a mirrored write for each; the mirrored write of
the second (odd) pixel stores color_val1, exactly as the source does. -/
def render4Pix (header : AafHeader) (swap_color : Bool)
    (src_buf : List Nat) (src_stride dest_stride : Int)
    (mirror_enabled : Bool) (mirror_offset dest_x_offset : Int)
    (y x : Int) (s : RenderSt) : RenderSt :=
  let width : Int := header.width
  let packed_gray := src_buf.getD (y * src_stride / 2 + x / 2).toNat 0
  let index1 := (packed_gray &&& 240) >>> 4
  let index2 := packed_gray &&& 15
  let r1 := ensureColor header swap_color s index1
  let color_val1 := r1.1
  let s1 := writeDest r1.2 (y * dest_stride + x) color_val1
  let s2 :=
    if mirror_enabled then
      let mirror_x := width + mirror_offset + width - 1 - x
      if 0 ≤ mirror_x ∧ dest_x_offset + mirror_x < dest_stride then
        writeDest s1 (y * dest_stride + mirror_x) color_val1
      else s1
    else s1
  let r2 := ensureColor header swap_color s2 index2
  let color_val2 := r2.1
  let s3 := writeDest r2.2 (y * dest_stride + x + 1) color_val2
  if mirror_enabled then
    let mirror_x := width + mirror_offset + width - 1 - (x + 1)
    if 0 ≤ mirror_x ∧ dest_x_offset + mirror_x < dest_stride then
      writeDest s3 (y * dest_stride + mirror_x) color_val1
    else s3
  else s3

/-- Clipping rectangle (gfx_area_t). -/
structure GfxArea where
  x1 : Int
  y1 : Int
  x2 : Int
  y2 : Int

/-- gfx_anim_render_4bit_pixels: iterates y over the clip height and x over
the even positions below the clip width. -/
def gfx_anim_render_4bit_pixels (dest0 : Int → Nat) (dest_stride : Int)
    (src_buf : List Nat) (src_stride : Int) (header : AafHeader)
    (cache0 : Nat → Nat) (clip_area : GfxArea) (swap_color : Bool)
    (mirror_enabled : Bool) (mirror_offset dest_x_offset : Int) : RenderSt :=
  let clip_w := clip_area.x2 - clip_area.x1
  let clip_h := clip_area.y2 - clip_area.y1
  (List.range clip_h.toNat).foldl (fun sy y =>
      (List.range ((clip_w.toNat + 1) / 2)).foldl (fun sx xi =>
          render4Pix header swap_color src_buf src_stride dest_stride
            mirror_enabled mirror_offset dest_x_offset (y : Int)
            ((2 * xi : Nat) : Int) sx)
        sy)
    { dest := dest0, cache := cache0 }

/-- Body of the 8-bit renderer for one pixel: palette lookup, primary write,
and a mirrored write of the same color when enabled and in bounds. -/
def render8Pix (header : AafHeader) (swap_color : Bool)
    (src_buf : List Nat) (src_stride dest_stride : Int)
    (mirror_enabled : Bool) (mirror_offset dest_x_offset : Int)
    (y x : Int) (s : RenderSt) : RenderSt :=
  let width : Int := header.width
  let index := src_buf.getD (y * src_stride + x).toNat 0
  let r := ensureColor header swap_color s index
  let color_val := r.1
  let s1 := writeDest r.2 (y * dest_stride + x) color_val
  if mirror_enabled then
    let mirror_x := width + mirror_offset + width - 1 - x
    if 0 ≤ mirror_x ∧ dest_x_offset + mirror_x < dest_stride then
      writeDest s1 (y * dest_stride + mirror_x) color_val
    else s1
  else s1

/-- gfx_anim_render_8bit_pixels. -/
def gfx_anim_render_8bit_pixels (dest0 : Int → Nat) (dest_stride : Int)
    (src_buf : List Nat) (src_stride : Int) (header : AafHeader)
    (cache0 : Nat → Nat) (clip_area : GfxArea) (swap_color : Bool)
    (mirror_enabled : Bool) (mirror_offset dest_x_offset : Int) : RenderSt :=
  let w := clip_area.x2 - clip_area.x1
  let h := clip_area.y2 - clip_area.y1
  (List.range h.toNat).foldl (fun sy y =>
      (List.range w.toNat).foldl (fun sx x =>
          render8Pix header swap_color src_buf src_stride dest_stride
            mirror_enabled mirror_offset dest_x_offset (y : Int) (x : Int) sx)
        sy)
    { dest := dest0, cache := cache0 }

/-- gfx_anim_render_24bit_pixels: the source bytes are already 16-bit packed
colors (viewed through uint16 pointers); the mirrored write copies the same
source pixel. The source buffer is a list of 16-bit values here, matching
the uint16 view the C source casts to. -/
def gfx_anim_render_24bit_pixels (dest0 : Int → Nat) (dest_stride : Int)
    (src_buf16 : List Nat) (src_stride : Int) (clip_area : GfxArea)
    (mirror_enabled : Bool) (mirror_offset dest_x_offset : Int) : RenderSt :=
  let w := clip_area.x2 - clip_area.x1
  let h := clip_area.y2 - clip_area.y1
  let width := src_stride
  (List.range h.toNat).foldl (fun sy y =>
      (List.range w.toNat).foldl (fun sx x =>
          let px := src_buf16.getD ((y : Int) * src_stride + x).toNat 0
          let s1 := writeDest sx ((y : Int) * dest_stride + x) px
          if mirror_enabled then
            let mirror_x := width + mirror_offset + width - 1 - (x : Int)
            if 0 ≤ mirror_x ∧ dest_x_offset + mirror_x < dest_stride then
              writeDest s1 ((y : Int) * dest_stride + mirror_x) px
            else s1
          else s1)
        sy)
    { dest := dest0, cache := fun _ => 0 }

/-!
## Frame decode cache and the block loop of gfx_draw_animation

The model below captures the control flow of the per-block loop that decides
whether a block is decoded or the cached decode buffer is reused: the
clipping tests, the source-offset range tests, the last_block comparison and
the decode call. The pixel writes of the render calls are omitted: they
read the decode buffer but never touch last_block or the decode count, which
are the observables of the cache claims. -/
structure AnimCacheSt where
  last_block : Int
  decode_count : Nat
deriving DecidableEq

/-- The clip_object rectangle of gfx_draw_animation: the draw request area
intersected with the placed object box. -/
def clipObject (obj_x obj_y width height x1 y1 x2 y2 : Int) : GfxArea :=
  { x1 := max x1 obj_x
    y1 := max y1 obj_y
    x2 := min x2 (obj_x + width)
    y2 := min y2 (obj_y + height) }

/-- The per-block skip tests of the loop in gfx_draw_animation, as one Bool:
the object-level clip is nonempty, the clip of this block is nonempty, and
the source offsets fall inside the block. A false value means the loop body
reaches a continue before the decode decision. -/
def blockTouches (header : AafHeader) (obj_x obj_y x1 y1 x2 y2 : Int)
    (block : Nat) : Bool :=
  let width : Int := header.width
  let height : Int := header.height
  let block_height : Int := header.block_height
  let co := clipObject obj_x obj_y width height x1 y1 x2 y2
  let block_start_y := (block : Int) * block_height + obj_y
  let block_end_y :=
    (if block = header.blocks - 1 then height else ((block : Int) + 1) * block_height)
      + obj_y
  let block_start_x := obj_x
  let block_end_x := width + obj_x
  let cb : GfxArea :=
    { x1 := max co.x1 block_start_x
      y1 := max co.y1 block_start_y
      x2 := min co.x2 block_end_x
      y2 := min co.y2 block_end_y }
  let src_offset_x := cb.x1 - block_start_x
  let src_offset_y := cb.y1 - block_start_y
  decide (co.x1 < co.x2) && decide (co.y1 < co.y2) &&
  decide (cb.x1 < cb.x2) && decide (cb.y1 < cb.y2) &&
  !(decide (src_offset_x < 0) || decide (src_offset_y < 0) ||
    decide (width ≤ src_offset_x) || decide (block_height ≤ src_offset_y))

/-- One iteration of the block loop, restricted to the decode-cache
observables: a block whose skip tests fail leaves the state untouched; a
touched block equal to last_block reuses the cached decode buffer (pure
compositing, no state change); otherwise the block is decoded, and only a
successful decode updates last_block. -/
def drawBlockStep (jpeg : JpegDec) (data : List Nat) (offsets : List Nat)
    (header : AafHeader) (swap_color : Bool)
    (obj_x obj_y x1 y1 x2 y2 : Int) (s : AnimCacheSt) (block : Nat) :
    AnimCacheSt :=
  if blockTouches header obj_x obj_y x1 y1 x2 y2 block then
    if (block : Int) ≠ s.last_block then
      match gfx_anim_decode_block jpeg data offsets header block
          header.width header.block_height swap_color with
      | .ok _ => { last_block := (block : Int), decode_count := s.decode_count + 1 }
      | .error _ => s
    else s
  else s

/-- The decode-cache effect of one gfx_draw_animation call: the early return
on an empty object clip, then the loop over all blocks. -/
def gfx_draw_animation_model (jpeg : JpegDec) (data : List Nat)
    (offsets : List Nat) (header : AafHeader) (swap_color : Bool)
    (obj_x obj_y x1 y1 x2 y2 : Int) (s : AnimCacheSt) : AnimCacheSt :=
  let co := clipObject obj_x obj_y header.width header.height x1 y1 x2 y2
  if co.x2 ≤ co.x1 ∨ co.y2 ≤ co.y1 then s
  else
    (List.range header.blocks).foldl
      (drawBlockStep jpeg data offsets header swap_color obj_x obj_y x1 y1 x2 y2)
      s

/-!
## Specification-side constructions

The round-trip claims quantify over encoder-side artifacts that the
repository does not contain (the asset pipeline produces them offline).
These are modelled from the words of the specification: the serialized code
table, the most-significant-bit-first bit packing with declared padding, and
the (count, value) pair encoding for RLE. -/

/-- Modelled from the spec: the big-endian byte serialization of a code of
the given bit length, using ceil(len / 8) bytes with unused high bits
zero. -/
def codeBytesAux : Nat → Nat → List Nat
  | 0, _ => []
  | nb + 1, code => (code / 256 ^ nb) % 256 :: codeBytesAux nb (code % 256 ^ nb)

def codeBytes (len code : Nat) : List Nat :=
  codeBytesAux ((len + 7) / 8) code

/-- Modelled from the spec: the code table serialized as repeating
(value, code length, big-endian code bytes) triples. -/
def serializeTriples (tbl : List (Nat × Nat × Nat)) : List Nat :=
  tbl.foldr (fun e acc => e.1 :: e.2.1 :: (codeBytes e.2.1 e.2.2 ++ acc)) []

/-- Value of a byte built from up to 8 bits, most significant first. -/
def byteOfBits (bs : List Bool) : Nat :=
  bs.foldl (fun a b => 2 * a + (if b then 1 else 0)) 0

/-- Modelled from the spec: most-significant-bit-first packing of a bit
stream into bytes, the final byte padded with zero bits. Fuel is the bit
count; every step consumes at least one bit. -/
def packBitsF : Nat → List Bool → List Nat
  | 0, _ => []
  | _ + 1, [] => []
  | fuel + 1, b :: bs =>
    let chunk := (b :: bs).take 8
    byteOfBits (chunk ++ List.replicate (8 - chunk.length) false)
      :: packBitsF fuel ((b :: bs).drop 8)

def packBits (bits : List Bool) : List Nat :=
  packBitsF bits.length bits

/-- Modelled from the spec: the declared count of padding bits in the final
packed byte, between 0 and 7. -/
def padCount (n : Nat) : Nat :=
  (8 - n % 8) % 8

/-- First code of the table for a byte value, in table order. -/
def lookupCode (tbl : List (Nat × Nat × Nat)) (b : Nat) : Option (Nat × Nat) :=
  match tbl.find? (fun e => e.1 == b) with
  | some e => some (e.2.1, e.2.2)
  | none => none

/-- Modelled from the spec: the concatenated code bits of a byte sequence
under the table (bytes without a code contribute nothing; the round-trip
theorem requires every byte to have one). -/
def msgBits (tbl : List (Nat × Nat × Nat)) (msg : List Nat) : List Bool :=
  msg.foldr (fun b acc =>
    (match lookupCode tbl b with
     | some lc => codePath lc.1 lc.2
     | none => []) ++ acc) []

/-- The bit path of a table entry. -/
def pathOf (e : Nat × Nat × Nat) : List Bool :=
  codePath e.2.1 e.2.2

/-- Neither bit path of the two entries is an initial segment of the other
(this makes a code set prefix-free in the sense of the specification). -/
def sepPair (a b : Nat × Nat × Nat) : Prop :=
  pathOf a ≠ (pathOf b).take (pathOf a).length ∧
  pathOf b ≠ (pathOf a).take (pathOf b).length

instance (a b : Nat × Nat × Nat) : Decidable (sepPair a b) := by
  unfold sepPair; infer_instance

/-- Pairwise prefix-freeness of a code table. -/
def codesSeparated (tbl : List (Nat × Nat × Nat)) : Prop :=
  tbl.Pairwise sepPair

instance (tbl : List (Nat × Nat × Nat)) : Decidable (codesSeparated tbl) :=
  List.instDecidablePairwise tbl

/-- Modelled from the spec: standard 5-6-5 quantization of an RGB triple,
red truncated to its top 5 bits in bits 15..11, green to its top 6 bits in
bits 10..5, blue to its top 5 bits in bits 4..0. -/
def spec565 (r g b : Nat) : Nat :=
  (r / 8) * 2048 + (g / 4) * 32 + b / 8

/-- Modelled from the spec: the flat (count, value) byte stream of an RLE
pair list. -/
def rlePairBytes (pairs : List (Nat × Nat)) : List Nat :=
  pairs.foldr (fun p acc => p.1 :: p.2 :: acc) []

/-- Modelled from the spec: the byte stream an RLE pair list denotes. -/
def rleExpansion (pairs : List (Nat × Nat)) : List Nat :=
  pairs.foldr (fun p acc => List.replicate p.1 p.2 ++ acc) []

/-!
## Concrete fixtures used by counterexamples and witnesses
-/

/-- A 4-bit header with two palette entries: index 0 is black, index 1 is
pure red (raw BGR bytes 0, 0, 255), so the two resolved colors differ. -/
def hdrMirror4 : AafHeader :=
  { width := 2, height := 1, blocks := 1, block_height := 1, bit_depth := 4,
    block_len := [], palette := [0, 0, 0, 0, 0, 0, 255, 0] }

/-- Rendering of the single packed source byte 0x01 (palette indices 0 and 1)
into an all-zero destination of stride 4, mirroring enabled with offset 0,
clip covering the whole 2-pixel block. -/
def renderMirror4 : RenderSt :=
  gfx_anim_render_4bit_pixels (fun _ => 0) 4 [1] 2 hdrMirror4
    (fun _ => 4294967295) { x1 := 0, y1 := 0, x2 := 2, y2 := 1 } false true 0 0

/-- A Huffman block whose table maps byte 5 to the two-bit code 10; the
payload byte 0x00 starts with bit 0, for which the root has no child. -/
def blkNullChild : List Nat := [1, 4, 0, 0, 5, 2, 2, 0]

/-- A Huffman block whose table maps byte 7 to the one-bit code 0; the
payload byte 0x00 decodes to eight bytes, far beyond a 2-byte capacity. -/
def blkOverflow : List Nat := [1, 4, 0, 0, 7, 1, 0, 0]

/-- Header for the overflow block: one block of declared length 8. -/
def hdrOverflow : AafHeader :=
  { width := 2, height := 1, blocks := 1, block_height := 1, bit_depth := 8,
    block_len := [8], palette := [] }

/-- A JPEG oracle that always fails; the fixtures never reach the JPEG
branch. -/
def jpegStub : JpegDec := fun _ _ _ => .error .fail

/-- A valid 1-frame container: magic 0x89 "AAF", frame count 1, checksum 182
over the 10-byte index+data region, one table entry (size 2, offset 0) and a
frame payload that is just the 0x5A5A frame magic. -/
def contChk : List Nat :=
  [137, 65, 65, 70, 1, 0, 0, 0, 182, 0, 0, 0, 10, 0, 0, 0,
   2, 0, 0, 0, 0, 0, 0, 0, 90, 90]

/-- A parser context with one entry, as init would build for contChk. -/
def ctxOne : AafCtx :=
  { entries := [{ asset_size := 2, asset_mem := 24 }], total_frames := 1 }

/-- A two-block 8-bit frame for the decode-cache fixture: each block is RLE
(tag 0) expanding to two zero pixels. -/
def hdrCache : AafHeader :=
  { width := 2, height := 2, blocks := 2, block_height := 1, bit_depth := 8,
    block_len := [3, 3], palette := [] }

/-- Frame bytes of the cache fixture: two RLE blocks [0, 2, 0]. -/
def dataCache : List Nat := [0, 2, 0, 0, 2, 0]

/-- One draw call of the cache fixture: the object sits at the origin and
the request area x in [0, 2), y in [1, 2) touches only block 1. -/
def drawCache (s : AnimCacheSt) : AnimCacheSt :=
  gfx_draw_animation_model jpegStub dataCache [0, 3] hdrCache false
    0 0 0 1 2 2 s

/-- The code table of the Huffman round-trip witness: byte 65 has code 0,
byte 66 code 10, byte 67 code 11. -/
def tblRT : List (Nat × Nat × Nat) := [(65, 1, 0), (66, 2, 2), (67, 2, 3)]

/-- The message of the Huffman round-trip witness. -/
def msgRT : List Nat := [66, 65, 67, 65]

/-- Path following in the reconstructed Huffman tree: the node reached from
the given node by walking the bit path, or none when the walk crosses a null
child. -/
def followPath : Option HNode → List Bool → Option HNode
  | none, _ => none
  | some n, [] => some n
  | some n, b :: bs => followPath (if b then n.right else n.left) bs

/-!
## Theorems
-/

/-- Claim C1: the claim states that with mirroring enabled and offset 0 every
written pixel at source-relative x is duplicated with the same color at
mirror x = width + 0 + width - 1 - x for every bit depth. At bit depth 4
this fails: rendering the packed byte 0x01 (palette indices 0 and 1, black
and red) with width 2 gives the red pixel at x = 1, whose mirror position is
2 * 2 - 1 - 1 = 2, yet the destination at 2 holds black (0), because the
second mirrored store of the source writes color_val1 instead of color_val2.
The first conjuncts evaluate the faithful embedding at that input; the last
records that the two colors differ, so this is not a collision. -/
theorem c1_mirror_4bit_wrong_color :
    renderMirror4.dest 1 = 63488 ∧ renderMirror4.dest 2 = 0 ∧
    renderMirror4.dest 3 = 0 ∧ renderMirror4.dest 0 = 0 ∧ (63488 : Nat) ≠ 0 := by
  refine ⟨?_, ?_, ?_, ?_, ?_⟩ <;> decide

/-- Claim C2, counterexample: on a payload whose first bit runs off the tree
(the table holds only the code 10 for byte 5, the payload starts with bit 0),
gfx_aaf_huffman_decode returns ESP_OK with an empty output and the
incomplete flag, not a failure result as the claim states. -/
theorem c2_null_child_returns_ok_cex :
    gfx_aaf_huffman_decode blkNullChild 8 = (EspErr.ok, [], false) := by
  decide

/-- Claim C3: the Huffman branch of gfx_anim_decode_block writes the decoded
bytes into its capacity width * block_height scratch buffer with no bound
check and only compares the decoded length against the capacity afterwards.
On hdrOverflow and blkOverflow the Huffman stage emits 8 bytes into a
capacity of 2, that is, bytes are stored at output indices 2..7, at and
beyond the capacity, before the decode aborts with an error. -/
theorem c3_huffman_overflow_writes_past_capacity :
    gfx_anim_decode_block jpegStub blkOverflow [0] hdrOverflow 0 2 1 false
        = .error .fail ∧
    (gfx_aaf_huffman_decode blkOverflow 8).2.1.length = 8 ∧
    2 * 1 < 8 := by
  refine ⟨rfl, ?_, ?_⟩ <;> decide

/-- Claim C9: the loop guard of gfx_aaf_rle_decode only requires
in_pos + 1 <= input_len before reading both the count byte at in_pos and the
value byte at in_pos + 1. On the one-byte input [1] with input_len = 1 the
read trace is [0, 1]: the value byte is read at index 1 = input_len, outside
the input, contradicting the claim that all reads stay strictly below
input_len. -/
theorem c9_rle_reads_past_input :
    (gfx_aaf_rle_decode [1] 1 5).2.2 = [0, 1] ∧
    ¬ ((1 : Nat) < 1) := by
  refine ⟨?_, ?_⟩ <;> decide

/-- Claim C10, counterexample: on a context with one frame, the getters at
index -1 pass the guard total_frames > index, dereference the entries array
at the out-of-range index -1 (the read trace), and return a non-NULL data
pointer and a size, instead of returning NULL and -1 without touching the
array as the claim states. -/
theorem c10_negative_index_cex :
    (gfx_aaf_format_get_frame_data ctxOne (-1)).1 ≠ none ∧
    (gfx_aaf_format_get_frame_data ctxOne (-1)).2 = [-1] ∧
    (gfx_aaf_format_get_frame_size ctxOne (-1)).1 ≠ -1 ∧
    (gfx_aaf_format_get_frame_size ctxOne (-1)).2 = [-1] := by
  refine ⟨?_, ?_, ?_, ?_⟩ <;> decide

/-- getD of an append, indexed past the first part. -/
theorem getD_append_add (l1 l2 : List Nat) (k d : Nat) :
    (l1 ++ l2).getD (l1.length + k) d = l2.getD k d := by
  rw [List.getD_eq_getElem?_getD, List.getD_eq_getElem?_getD,
    List.getElem?_append_right (Nat.le_add_right _ _), Nat.add_sub_cancel_left]

/-- getD of an append at the boundary index. -/
theorem getD_append_len (l1 l2 : List Nat) (d : Nat) :
    (l1 ++ l2).getD l1.length d = l2.getD 0 d := by
  have h := getD_append_add l1 l2 0 d
  simpa using h

/-- The RLE loop, started after a prefix of already-consumed bytes, expands
the remaining pair list when the capacity suffices. -/
theorem rleLoop_ok (pairs : List (Nat × Nat)) :
    ∀ (fuel : Nat) (pre out reads : List Nat) (output_len : Nat),
    pairs.length ≤ fuel →
    out.length + (rleExpansion pairs).length ≤ output_len →
    ∃ reads2,
      rleLoop (pre ++ rlePairBytes pairs) (pre.length + 2 * pairs.length)
        output_len fuel pre.length out reads
      = (.ok, out ++ rleExpansion pairs, reads2) := by
  induction pairs with
  | nil =>
    intro fuel pre out reads output_len _ _
    refine ⟨reads, ?_⟩
    cases fuel with
    | zero => simp [rleLoop, rlePairBytes, rleExpansion]
    | succ f =>
      simp only [rlePairBytes, rleExpansion, List.length_nil, Nat.mul_zero,
        Nat.add_zero, List.foldr_nil, List.append_nil, rleLoop]
      rw [if_neg (by omega)]
  | cons p ps ih =>
    intro fuel pre out reads output_len hfuel hcap
    obtain ⟨c, v⟩ := p
    cases fuel with
    | zero => simp at hfuel
    | succ f =>
      have hexp : rleExpansion ((c, v) :: ps)
          = List.replicate c v ++ rleExpansion ps := rfl
      have hbytes : rlePairBytes ((c, v) :: ps) = c :: v :: rlePairBytes ps := rfl
      rw [hexp] at hcap
      rw [hbytes, hexp]
      simp only [rleLoop]
      rw [if_pos (by simp; omega)]
      have hc : (pre ++ c :: v :: rlePairBytes ps).getD pre.length 0 = c := by
        rw [getD_append_len]; rfl
      have hv : (pre ++ c :: v :: rlePairBytes ps).getD (pre.length + 1) 0 = v := by
        rw [getD_append_add]; rfl
      rw [hc, hv]
      have hlen : (List.replicate c v).length = c := List.length_replicate c v
      rw [if_neg (by simp at hcap ⊢; omega)]
      have harr : pre ++ c :: v :: rlePairBytes ps
          = (pre ++ [c, v]) ++ rlePairBytes ps := by simp
      have hpos : pre.length + 2 = (pre ++ [c, v]).length := by simp
      have hil : pre.length + 2 * ((c, v) :: ps).length
          = (pre ++ [c, v]).length + 2 * ps.length := by simp; omega
      obtain ⟨reads2, hr⟩ := ih f (pre ++ [c, v]) (out ++ List.replicate c v)
        (reads ++ [pre.length, pre.length + 1]) output_len
        (by simp at hfuel; omega)
        (by simp at hcap ⊢; omega)
      refine ⟨reads2, ?_⟩
      rw [harr, hpos, List.length_cons] at *
      rw [show pre.length + 2 * (ps.length + 1)
            = (pre ++ [c, v]).length + 2 * ps.length by simp; omega]
      rw [hr, List.append_assoc]

/-- Claim C6: RLE round-trip. For every pair list with counts in [1, 255]
and byte values, decoding the flat (count, value) byte stream with a
sufficient output capacity succeeds and reproduces the expanded stream
exactly; the empty pair list is included (empty input, empty output,
success). -/
theorem c6_rle_round_trip (pairs : List (Nat × Nat)) (output_len : Nat)
    (_hcount : ∀ p ∈ pairs, 1 ≤ p.1 ∧ p.1 ≤ 255)
    (_hval : ∀ p ∈ pairs, p.2 < 256)
    (hcap : (rleExpansion pairs).length ≤ output_len) :
    (gfx_aaf_rle_decode (rlePairBytes pairs) (2 * pairs.length) output_len).1
        = .ok ∧
    (gfx_aaf_rle_decode (rlePairBytes pairs) (2 * pairs.length) output_len).2.1
        = rleExpansion pairs := by
  obtain ⟨reads2, hr⟩ := rleLoop_ok pairs (2 * pairs.length) [] [] [] output_len
    (by omega) (by simpa using hcap)
  unfold gfx_aaf_rle_decode
  simp only [List.nil_append, List.length_nil, Nat.zero_add] at hr
  rw [hr]
  exact ⟨rfl, by simp⟩

/-- Witness for c6_rle_round_trip at pairs [(2, 7), (1, 9)] and capacity 3. -/
theorem c6_rle_round_trip_witness :
    (∀ p ∈ [((2 : Nat), (7 : Nat)), (1, 9)], 1 ≤ p.1 ∧ p.1 ≤ 255) ∧
    (∀ p ∈ [((2 : Nat), (7 : Nat)), (1, 9)], p.2 < 256) ∧
    (rleExpansion [(2, 7), (1, 9)]).length ≤ 3 ∧
    (gfx_aaf_rle_decode (rlePairBytes [(2, 7), (1, 9)]) (2 * 2) 3).1 = .ok ∧
    (gfx_aaf_rle_decode (rlePairBytes [(2, 7), (1, 9)]) (2 * 2) 3).2.1
        = rleExpansion [(2, 7), (1, 9)] :=
  ⟨by decide, by decide, by decide,
    (c6_rle_round_trip [(2, 7), (1, 9)] 3 (by decide) (by decide) (by decide)).1,
    (c6_rle_round_trip [(2, 7), (1, 9)] 3 (by decide) (by decide) (by decide)).2⟩

/-- Every getD read from a list of bytes is a byte (the default is 0). -/
theorem getD_lt_256 (l : List Nat) (h : ∀ x ∈ l, x < 256) (i : Nat) :
    l.getD i 0 < 256 := by
  rw [List.getD_eq_getElem?_getD]
  cases hh : l[i]? with
  | none => simp
  | some a =>
    have ha : a ∈ l := by
      have hlt : i < l.length := by
        by_contra hge
        rw [List.getElem?_eq_none (by omega)] at hh
        exact Option.noConfusion hh
      rw [List.getElem?_eq_getElem hlt] at hh
      cases hh
      exact List.getElem_mem hlt
    simpa using h a ha

set_option maxRecDepth 4000 in
/-- The RGB565 packing expression of the source equals the arithmetic 5-6-5
truncation of the specification, for byte inputs. -/
theorem pack565_eq (r g b : Nat) (hr : r < 256) (hg : g < 256) (hb : b < 256) :
    (((r &&& 248) <<< 8) ||| ((g &&& 252) <<< 3)) ||| ((b &&& 248) >>> 3)
      = spec565 r g b := by
  have h248 : ∀ x, x < 256 → x &&& 248 = 8 * (x / 8) := by decide
  have h252 : ∀ x, x < 256 → x &&& 252 = 4 * (x / 4) := by decide
  rw [h248 r hr, h252 g hg, h248 b hb, Nat.shiftLeft_eq, Nat.shiftLeft_eq,
    Nat.shiftRight_eq_div_pow]
  have hA : 8 * (r / 8) * 2 ^ 8 = 2 ^ 11 * (r / 8) := by ring
  have hB : 4 * (g / 4) * 2 ^ 3 = 32 * (g / 4) := by ring
  have hC : 8 * (b / 8) / 2 ^ 3 = b / 8 := by omega
  rw [hA, hB, hC]
  have hBlt : 32 * (g / 4) < 2 ^ 11 := by omega
  rw [← Nat.mul_add_lt_is_or hBlt (r / 8)]
  have hsum : 2 ^ 11 * (r / 8) + 32 * (g / 4) = 2 ^ 5 * (64 * (r / 8) + g / 4) := by
    ring
  have hClt : b / 8 < 2 ^ 5 := by omega
  rw [hsum, ← Nat.mul_add_lt_is_or hClt (64 * (r / 8) + g / 4)]
  unfold spec565
  ring

/-- Claim C7: for every header and palette index, the unswapped resolved
color is the 5-6-5 truncation of the stored BGR palette bytes (red from byte
2 to bits 15..11, green from byte 1 to bits 10..5, blue from byte 0 to bits
4..0), and the swapped resolution is the 16-bit byte swap of the unswapped
one. -/
theorem c7_palette_565_and_swap (header : AafHeader) (index : Nat)
    (hpal : ∀ x ∈ header.palette, x < 256) :
    gfx_aaf_parse_palette header index false
      = spec565 (header.palette.getD (index * 4 + 2) 0)
          (header.palette.getD (index * 4 + 1) 0)
          (header.palette.getD (index * 4) 0) ∧
    gfx_aaf_parse_palette header index true
      = bswap16 (gfx_aaf_parse_palette header index false) := by
  constructor
  · unfold gfx_aaf_parse_palette
    simp only [if_neg Bool.false_ne_true]
    exact pack565_eq _ _ _ (getD_lt_256 _ hpal _) (getD_lt_256 _ hpal _)
      (getD_lt_256 _ hpal _)
  · rfl

/-- Witness for c7_palette_565_and_swap on the fixture palette, index 1. -/
theorem c7_palette_565_and_swap_witness :
    (∀ x ∈ hdrMirror4.palette, x < 256) ∧
    (gfx_aaf_parse_palette hdrMirror4 1 false
        = spec565 (hdrMirror4.palette.getD 6 0) (hdrMirror4.palette.getD 5 0)
            (hdrMirror4.palette.getD 4 0) ∧
      gfx_aaf_parse_palette hdrMirror4 1 true
        = bswap16 (gfx_aaf_parse_palette hdrMirror4 1 false)) :=
  ⟨by decide, c7_palette_565_and_swap hdrMirror4 1 (by decide)⟩

/-- getD after set at the written index. -/
theorem getD_set_self (l : List Nat) (i b : Nat) (h : i < l.length) :
    (l.set i b).getD i 0 = b := by
  rw [List.getD_eq_getElem?_getD, List.getElem?_set_self h]
  rfl

/-- getD after set at a different index. -/
theorem getD_set_ne (l : List Nat) (i j b : Nat) (h : i ≠ j) :
    (l.set i b).getD j 0 = l.getD j 0 := by
  rw [List.getD_eq_getElem?_getD, List.getElem?_set_ne h,
    ← List.getD_eq_getElem?_getD]

/-- getD through drop. -/
theorem getD_drop (l : List Nat) (n k : Nat) :
    (l.drop n).getD k 0 = l.getD (n + k) 0 := by
  rw [List.getD_eq_getElem?_getD, List.getD_eq_getElem?_getD,
    List.getElem?_drop]

/-- The wrapping byte-sum fold equals the plain sum modulo 2^32. -/
theorem foldl_mod_sum (l : List Nat) :
    ∀ a, l.foldl (fun x b => (x + b) % 4294967296) (a % 4294967296)
      = (a + l.sum) % 4294967296 := by
  induction l with
  | nil => intro a; simp
  | cons b t ih =>
    intro a
    have h1 : (a % 4294967296 + b) % 4294967296 = (a + b) % 4294967296 :=
      Nat.mod_add_mod a 4294967296 b
    simp only [List.foldl_cons, h1]
    rw [ih (a + b)]
    simp [Nat.add_assoc, List.sum_cons]

/-- gfx_aaf_format_calc_checksum over a dropped region, written with
absolute byte indices. -/
theorem calc_checksum_drop (l : List Nat) (n : Nat) :
    gfx_aaf_format_calc_checksum (l.drop 16) n
      = ((List.range n).map (fun k => l.getD (16 + k) 0)).sum % 4294967296 := by
  unfold gfx_aaf_format_calc_checksum
  have hmap : (List.range n).map (fun i => (l.drop 16).getD i 0)
      = (List.range n).map (fun k => l.getD (16 + k) 0) := by
    refine List.map_congr_left ?_
    intro k _
    exact getD_drop l 16 k
  rw [hmap]
  have h := foldl_mod_sum ((List.range n).map (fun k => l.getD (16 + k) 0)) 0
  rw [Nat.zero_mod] at h
  rw [h, Nat.zero_add]

/-- Changing one in-range byte shifts the region byte sum by the byte
difference. -/
theorem sum_map_getD_set (data : List Nat) (i b n : Nat)
    (hi : i < data.length) (hoff : 16 ≤ i) :
    ∀ (_hin : i < 16 + n),
    ((List.range n).map (fun k => (data.set i b).getD (16 + k) 0)).sum
        + data.getD i 0
      = ((List.range n).map (fun k => data.getD (16 + k) 0)).sum + b := by
  induction n with
  | zero => intro _hin; omega

  | succ n ih =>
    intro hin
    rw [List.range_succ, List.map_append, List.map_append, List.sum_append,
      List.sum_append]
    by_cases hlast : i = 16 + n
    · have hrest : (List.range n).map (fun k => (data.set i b).getD (16 + k) 0)
          = (List.range n).map (fun k => data.getD (16 + k) 0) := by
        refine List.map_congr_left ?_
        intro k hk
        have hk2 : k < n := List.mem_range.mp hk
        exact getD_set_ne data i (16 + k) b (by omega)
      rw [hrest]
      have hset : (data.set i b).getD (16 + n) 0 = b := by
        rw [← hlast]; exact getD_set_self data i b hi
      have hold : data.getD (16 + n) 0 = data.getD i 0 := by rw [← hlast]
      simp only [List.map_cons, List.map_nil, List.sum_cons, List.sum_nil,
        hset, hold]
      omega
    · have hin2 : i < 16 + n := by omega
      have hlasteq : (data.set i b).getD (16 + n) 0 = data.getD (16 + n) 0 :=
        getD_set_ne data i (16 + n) b (by omega)
      simp only [List.map_cons, List.map_nil, List.sum_cons, List.sum_nil,
        hlasteq]
      have := ih hin2
      omega

/-- Claim C5: for every byte buffer that gfx_aaf_format_init accepts,
replacing any single byte of the checksummed region (the stored_len bytes
from offset 16) by a different byte value makes init fail with the
invalid-container error, because the recomputed 32-bit additive checksum no
longer matches the stored one. -/
theorem c5_checksum_single_byte_mutation (data : List Nat) (i b2 : Nat)
    (ctx : AafCtx) (hopen : gfx_aaf_format_init data = .ok ctx)
    (hbytes : ∀ x ∈ data, x < 256) (hb2 : b2 < 256)
    (hlo : 16 ≤ i) (hhi : i < 16 + readLE32 data 12)
    (hlen : 16 + readLE32 data 12 ≤ data.length)
    (hne : b2 ≠ data.getD i 0) :
    gfx_aaf_format_init (data.set i b2) = .error .err_invalid_crc := by
  have hset16 : ∀ k, k < 16 → (data.set i b2).getD k 0 = data.getD k 0 :=
    fun k hk => getD_set_ne data i k b2 (by omega)
  have hLE : ∀ off, off + 3 < 16 →
      readLE32 (data.set i b2) off = readLE32 data off := by
    intro off hoff
    unfold readLE32
    rw [hset16 off (by omega), hset16 (off + 1) (by omega),
      hset16 (off + 2) (by omega), hset16 (off + 3) (by omega)]
  simp only [gfx_aaf_format_init] at hopen ⊢
  by_cases h1 : data.getD 0 0 ≠ 137
  · rw [if_pos h1] at hopen; cases hopen
  rw [if_neg h1] at hopen
  by_cases h2 : ¬(data.getD 1 0 = 65 ∧ data.getD 2 0 = 65 ∧ data.getD 3 0 = 70)
  · rw [if_pos h2] at hopen; cases hopen
  rw [if_neg h2] at hopen
  by_cases h3 : gfx_aaf_format_calc_checksum (data.drop 16) (readLE32 data 12)
      ≠ readLE32 data 8
  · rw [if_pos h3] at hopen; cases hopen
  rw [hset16 0 (by omega), if_neg h1, hset16 1 (by omega),
    hset16 2 (by omega), hset16 3 (by omega), if_neg h2,
    hLE 12 (by omega), hLE 8 (by omega)]
  have hchk : gfx_aaf_format_calc_checksum ((data.set i b2).drop 16)
      (readLE32 data 12) ≠ readLE32 data 8 := by
    rw [calc_checksum_drop]
    have hS := sum_map_getD_set data i b2 (readLE32 data 12)
      (by omega) hlo hhi
    have hold : data.getD i 0 < 256 := getD_lt_256 data hbytes i
    have h3e : gfx_aaf_format_calc_checksum (data.drop 16) (readLE32 data 12)
        = readLE32 data 8 := by omega
    rw [calc_checksum_drop] at h3e
    omega
  rw [if_pos hchk]

/-- Witness for c5_checksum_single_byte_mutation on the one-frame container
contChk, mutating the first payload byte (index 24) from 90 to 91. -/
theorem c5_checksum_single_byte_mutation_witness :
    gfx_aaf_format_init contChk = .ok ctxOne ∧
    (∀ x ∈ contChk, x < 256) ∧ (91 : Nat) < 256 ∧ (16 : Nat) ≤ 24 ∧
    24 < 16 + readLE32 contChk 12 ∧
    16 + readLE32 contChk 12 ≤ contChk.length ∧
    (91 : Nat) ≠ contChk.getD 24 0 ∧
    gfx_aaf_format_init (contChk.set 24 91) = .error .err_invalid_crc :=
  ⟨rfl, by decide, by decide, by decide, by decide, by decide, by decide,
    c5_checksum_single_byte_mutation contChk 24 91 ctxOne rfl (by decide)
      (by decide) (by decide) (by decide) (by decide) (by decide)⟩

/-- A block whose skip tests fail leaves the cache state untouched. -/
theorem drawBlockStep_skip (jpeg : JpegDec) (data offsets : List Nat)
    (header : AafHeader) (swap_color : Bool) (obj_x obj_y x1 y1 x2 y2 : Int)
    (s : AnimCacheSt) (block : Nat)
    (h : blockTouches header obj_x obj_y x1 y1 x2 y2 block = false) :
    drawBlockStep jpeg data offsets header swap_color obj_x obj_y x1 y1 x2 y2
      s block = s := by
  unfold drawBlockStep
  rw [h]
  rfl

/-- When the cache already holds block K and every touched block of the list
is K, the block loop never decodes. -/
theorem drawFold_cached (jpeg : JpegDec) (data offsets : List Nat)
    (header : AafHeader) (swap_color : Bool) (obj_x obj_y x1 y1 x2 y2 : Int)
    (K : Nat) :
    ∀ (L : List Nat),
    (∀ b ∈ L, blockTouches header obj_x obj_y x1 y1 x2 y2 b = true → b = K) →
    ∀ s : AnimCacheSt, s.last_block = (K : Int) →
    L.foldl (drawBlockStep jpeg data offsets header swap_color obj_x obj_y
      x1 y1 x2 y2) s = s := by
  intro L
  induction L with
  | nil => intro _ s _; rfl
  | cons b t ih =>
    intro honly s hs
    rw [List.foldl_cons]
    have hstep : drawBlockStep jpeg data offsets header swap_color obj_x obj_y
        x1 y1 x2 y2 s b = s := by
      cases htb : blockTouches header obj_x obj_y x1 y1 x2 y2 b with
      | false => exact drawBlockStep_skip _ _ _ _ _ _ _ _ _ _ _ s b htb
      | true =>
        have hbK : b = K := honly b (List.mem_cons_self b t) htb
        unfold drawBlockStep
        rw [htb]
        simp only [if_true]
        rw [if_neg (by rw [hbK, hs]; simp)]
    rw [hstep]
    exact ih (fun b2 hb2 => honly b2 (List.mem_cons_of_mem b hb2)) s hs

/-- When the cache does not hold block K, every touched block of the list is
K, K occurs in the list, and the decode of K succeeds, the block loop decodes
exactly once and caches K. -/
theorem drawFold_decode (jpeg : JpegDec) (data offsets : List Nat)
    (header : AafHeader) (swap_color : Bool) (obj_x obj_y x1 y1 x2 y2 : Int)
    (K : Nat) (out : List Nat)
    (hdec : gfx_anim_decode_block jpeg data offsets header K header.width
      header.block_height swap_color = .ok out) :
    ∀ (L : List Nat),
    (∀ b ∈ L, blockTouches header obj_x obj_y x1 y1 x2 y2 b = true ↔ b = K) →
    ∀ s : AnimCacheSt, s.last_block ≠ (K : Int) →
    (blockTouches header obj_x obj_y x1 y1 x2 y2 K = true) → K ∈ L →
    L.foldl (drawBlockStep jpeg data offsets header swap_color obj_x obj_y
      x1 y1 x2 y2) s
      = { last_block := (K : Int), decode_count := s.decode_count + 1 } := by
  intro L
  induction L with
  | nil => intro _ _ _ _ hmem; cases hmem
  | cons b t ih =>
    intro honly s hs htK hmem
    rw [List.foldl_cons]
    by_cases hbK : b = K
    · subst hbK
      have hstep : drawBlockStep jpeg data offsets header swap_color obj_x
          obj_y x1 y1 x2 y2 s b
          = { last_block := (b : Int), decode_count := s.decode_count + 1 } := by
        unfold drawBlockStep
        rw [htK]
        simp only [if_true]
        rw [if_pos (Ne.symm hs), hdec]
      rw [hstep]
      exact drawFold_cached jpeg data offsets header swap_color obj_x obj_y
        x1 y1 x2 y2 b t (fun b2 _ ht2 => (honly b2 (List.mem_cons_of_mem b ‹b2 ∈ t›)).mp ht2)
        _ rfl
    · have htb : blockTouches header obj_x obj_y x1 y1 x2 y2 b = false := by
        cases htb2 : blockTouches header obj_x obj_y x1 y1 x2 y2 b with
        | false => rfl
        | true => exact absurd ((honly b (List.mem_cons_self b t)).mp htb2) hbK
      rw [drawBlockStep_skip _ _ _ _ _ _ _ _ _ _ _ s b htb]
      have hmem2 : K ∈ t := by
        cases hmem with
        | head => exact absurd rfl hbK
        | tail _ h => exact h
      exact ih (fun b2 hb2 => honly b2 (List.mem_cons_of_mem b hb2)) s hs htK hmem2

/-- A touched block implies the object-level clip is nonempty, so the draw
call does not take its early return. -/
theorem blockTouches_co (header : AafHeader) (obj_x obj_y x1 y1 x2 y2 : Int)
    (b : Nat) (h : blockTouches header obj_x obj_y x1 y1 x2 y2 b = true) :
    ¬((clipObject obj_x obj_y header.width header.height x1 y1 x2 y2).x2
        ≤ (clipObject obj_x obj_y header.width header.height x1 y1 x2 y2).x1 ∨
      (clipObject obj_x obj_y header.width header.height x1 y1 x2 y2).y2
        ≤ (clipObject obj_x obj_y header.width header.height x1 y1 x2 y2).y1) := by
  simp only [blockTouches, Bool.and_eq_true, decide_eq_true_eq] at h
  obtain ⟨⟨⟨⟨hA, hB⟩, _⟩, _⟩, _⟩ := h
  omega

/-- Claim C8, decode-cache reuse: when the clip of a render request touches
exactly block K among all blocks and the decode of K succeeds, then (a) a
request issued while the cache holds K performs zero decodes and leaves the
cache state unchanged, and (b) starting from the fresh state last_block = -1,
one request performs exactly one decode, and a second identical request
performs none, so the two consecutive requests perform exactly one decode in
total. -/
theorem c8_decode_cache_reuse (jpeg : JpegDec) (data offsets : List Nat)
    (header : AafHeader) (swap_color : Bool) (obj_x obj_y x1 y1 x2 y2 : Int)
    (K : Nat) (out : List Nat)
    (hK : K < header.blocks)
    (honly : ∀ b, b < header.blocks →
      (blockTouches header obj_x obj_y x1 y1 x2 y2 b = true ↔ b = K))
    (hdec : gfx_anim_decode_block jpeg data offsets header K header.width
      header.block_height swap_color = .ok out) :
    (∀ s : AnimCacheSt, s.last_block = (K : Int) →
      gfx_draw_animation_model jpeg data offsets header swap_color obj_x obj_y
        x1 y1 x2 y2 s = s) ∧
    gfx_draw_animation_model jpeg data offsets header swap_color obj_x obj_y
        x1 y1 x2 y2 { last_block := -1, decode_count := 0 }
      = { last_block := (K : Int), decode_count := 1 } ∧
    gfx_draw_animation_model jpeg data offsets header swap_color obj_x obj_y
        x1 y1 x2 y2 (gfx_draw_animation_model jpeg data offsets header
          swap_color obj_x obj_y x1 y1 x2 y2
          { last_block := -1, decode_count := 0 })
      = { last_block := (K : Int), decode_count := 1 } := by
  have htK : blockTouches header obj_x obj_y x1 y1 x2 y2 K = true :=
    (honly K hK).mpr rfl
  have hco := blockTouches_co header obj_x obj_y x1 y1 x2 y2 K htK
  have part1 : ∀ s : AnimCacheSt, s.last_block = (K : Int) →
      gfx_draw_animation_model jpeg data offsets header swap_color obj_x obj_y
        x1 y1 x2 y2 s = s := by
    intro s hs
    simp only [gfx_draw_animation_model]
    rw [if_neg hco]
    exact drawFold_cached jpeg data offsets header swap_color obj_x obj_y
      x1 y1 x2 y2 K (List.range header.blocks)
      (fun b hb ht => (honly b (List.mem_range.mp hb)).mp ht) s hs
  have part2 : gfx_draw_animation_model jpeg data offsets header swap_color
      obj_x obj_y x1 y1 x2 y2 { last_block := -1, decode_count := 0 }
      = { last_block := (K : Int), decode_count := 1 } := by
    simp only [gfx_draw_animation_model]
    rw [if_neg hco]
    exact drawFold_decode jpeg data offsets header swap_color obj_x obj_y
      x1 y1 x2 y2 K out hdec (List.range header.blocks)
      (fun b hb => honly b (List.mem_range.mp hb))
      { last_block := -1, decode_count := 0 } (by simp) htK
      (List.mem_range.mpr hK)
  refine ⟨part1, part2, ?_⟩
  rw [part2]
  exact part1 { last_block := (K : Int), decode_count := 1 } rfl

/-- Witness for c8_decode_cache_reuse on the two-block fixture: the request
area touches only block 1; the first call from the fresh state decodes once,
the second call decodes nothing. -/
theorem c8_decode_cache_reuse_witness :
    (1 < hdrCache.blocks) ∧
    (∀ b, b < hdrCache.blocks →
      (blockTouches hdrCache 0 0 0 1 2 2 b = true ↔ b = 1)) ∧
    gfx_anim_decode_block jpegStub dataCache [0, 3] hdrCache 1 hdrCache.width
      hdrCache.block_height false = .ok [0, 0] ∧
    drawCache { last_block := -1, decode_count := 0 }
      = { last_block := 1, decode_count := 1 } ∧
    drawCache (drawCache { last_block := -1, decode_count := 0 })
      = { last_block := 1, decode_count := 1 } :=
  have h := c8_decode_cache_reuse jpegStub dataCache [0, 3] hdrCache false
    0 0 0 1 2 2 1 [0, 0] (by decide) (by decide) rfl
  ⟨by decide, by decide, rfl, h.2.1, h.2.2⟩

/-- Claim C10, amended: the getters reject an index exactly when it reaches
total_frames; any smaller index, including every negative one, passes the
guard and dereferences the entries array at that index; for indices inside
[0, total_frames) the returned pointer and size come from the stored
entry. -/
theorem c10_frame_getters_upper_bound_only (ctx : AafCtx) (index : Int)
    (hc : ctx.total_frames = ctx.entries.length) :
    ((gfx_aaf_format_get_frame_data ctx index).1 = none ↔
      ctx.total_frames ≤ index) ∧
    (ctx.total_frames ≤ index →
      (gfx_aaf_format_get_frame_size ctx index).1 = -1 ∧
      (gfx_aaf_format_get_frame_data ctx index).2 = [] ∧
      (gfx_aaf_format_get_frame_size ctx index).2 = []) ∧
    (index < ctx.total_frames →
      (gfx_aaf_format_get_frame_data ctx index).2 = [index] ∧
      (gfx_aaf_format_get_frame_size ctx index).2 = [index]) ∧
    (0 ≤ index → index < ctx.total_frames →
      (gfx_aaf_format_get_frame_data ctx index).1
        = some ((ctx.entries.getD index.toNat ⟨0, 0⟩).asset_mem + 2) ∧
      (gfx_aaf_format_get_frame_size ctx index).1
        = ((ctx.entries.getD index.toNat ⟨0, 0⟩).asset_size : Int) - 2) := by
  unfold gfx_aaf_format_get_frame_data gfx_aaf_format_get_frame_size
  by_cases hg : ctx.total_frames > index
  · simp only [if_pos hg]
    refine ⟨by simp; omega, fun hle => absurd hg (by omega), fun _ => by simp,
      fun hnn hlt => ?_⟩
    have hrange : 0 ≤ index ∧ index.toNat < ctx.entries.length := by
      constructor
      · exact hnn
      · omega
    unfold entryAt
    rw [dif_pos hrange]
    have hgetD : ctx.entries.getD index.toNat ⟨0, 0⟩
        = ctx.entries.get ⟨index.toNat, hrange.2⟩ := by
      rw [List.getD_eq_getElem?_getD, List.getElem?_eq_getElem hrange.2]
      rfl
    rw [hgetD]
    exact ⟨rfl, rfl⟩
  · simp only [if_neg hg]
    exact ⟨by simp; omega, fun _ => by simp,
      fun hlt => absurd hlt (by omega), fun _ hlt => absurd hlt (by omega)⟩

/-- Witness for c10_frame_getters_upper_bound_only on ctxOne at index 0. -/
theorem c10_frame_getters_upper_bound_only_witness :
    ctxOne.total_frames = ctxOne.entries.length ∧
    ((gfx_aaf_format_get_frame_data ctxOne 0).1 = none ↔
      ctxOne.total_frames ≤ 0) ∧
    (0 < ctxOne.total_frames →
      (gfx_aaf_format_get_frame_data ctxOne 0).2 = [0] ∧
      (gfx_aaf_format_get_frame_size ctxOne 0).2 = [0]) :=
  have h := c10_frame_getters_upper_bound_only ctxOne 0 (by decide)
  ⟨by decide, h.1, fun hlt => (h.2.2.1 hlt)⟩

/-- Unfolding equation of the decode loop when the selected child is
null. -/
theorem decodeBits_cons_none (root cur : HNode) (b : Bool) (bs : List Bool)
    (acc : List Nat) (h : (if b then cur.right else cur.left) = none) :
    decodeBits root cur (b :: bs) acc = (acc, false) := by
  simp only [decodeBits]
  rw [h]

/-- Unfolding equation of the decode loop when the selected child exists. -/
theorem decodeBits_cons_some (root cur : HNode) (b : Bool) (bs : List Bool)
    (acc : List Nat) (nxt : HNode)
    (h : (if b then cur.right else cur.left) = some nxt) :
    decodeBits root cur (b :: bs) acc
      = if nxt.is_leaf then decodeBits root root bs (acc ++ [nxt.value])
        else decodeBits root nxt bs acc := by
  simp only [decodeBits]
  rw [h]

/-- Once the decode loop has stopped on a null child within a bit-stream
fragment, appending further bits changes nothing: the loop never consults
them, the emitted output stays exactly what was decoded before the
failure. -/
theorem decodeBits_fail_append (root : HNode) :
    ∀ (bits1 : List Bool) (cur : HNode) (acc out : List Nat)
      (bits2 : List Bool),
    decodeBits root cur bits1 acc = (out, false) →
    decodeBits root cur (bits1 ++ bits2) acc = (out, false) := by
  intro bits1
  induction bits1 with
  | nil =>
    intro cur acc out bits2 h
    simp [decodeBits] at h
  | cons b bs ih =>
    intro cur acc out bits2 h
    rw [List.cons_append]
    cases hc : (if b then cur.right else cur.left) with
    | none =>
      rw [decodeBits_cons_none root cur b bs acc hc] at h
      rw [decodeBits_cons_none root cur b (bs ++ bits2) acc hc]
      exact h
    | some nxt =>
      rw [decodeBits_cons_some root cur b bs acc nxt hc] at h
      rw [decodeBits_cons_some root cur b (bs ++ bits2) acc nxt hc]
      by_cases hl : nxt.is_leaf = true
      · rw [if_pos hl] at h ⊢
        exact ih root (acc ++ [nxt.value]) out bits2 h
      · rw [if_neg hl] at h ⊢
        exact ih nxt acc out bits2 h

/-- Claim C2, amended: when the bit traversal runs off the tree after the
first k bits (having emitted out), the full call emits exactly out, reports
its length through output_len, never consumes the remaining bits, and
returns ESP_OK rather than a failure result. -/
theorem c2_null_child_stops_and_reports (buffer : List Nat) (buflen k : Nat)
    (out : List Nat)
    (hb1 : 1 ≤ buflen) (hb2 : 3 + dictLen buffer ≤ buflen)
    (hbl : buflen ≤ buffer.length) (hdl : dictLen buffer ≠ 0)
    (hdata : buflen - 3 - dictLen buffer ≠ 0)
    (hfail : decodeBits
        (buildTree (parseTriples ((huffDict buffer).drop 1)))
        (buildTree (parseTriples ((huffDict buffer).drop 1)))
        ((extractBits (huffPayload buffer buflen)
          ((huffPayload buffer buflen).length * 8
            - (huffDict buffer).getD 0 0)).take k) []
        = (out, false)) :
    gfx_aaf_huffman_decode buffer buflen = (.ok, out, false) := by
  have hdictlen : (huffDict buffer).length = dictLen buffer := by
    unfold huffDict
    rw [List.length_take, List.length_drop]
    omega
  have hdatalen : (huffPayload buffer buflen).length
      = buflen - 3 - dictLen buffer := by
    unfold huffPayload
    rw [List.length_take, List.length_drop]
    omega
  simp only [gfx_aaf_huffman_decode, decode_huffman_data]
  rw [if_neg (by omega), if_neg (by omega), if_neg (by simpa using hdata),
    if_neg (by rw [hdatalen, hdictlen]; omega)]
  have hsplit := List.take_append_drop k
    (extractBits (huffPayload buffer buflen)
      ((huffPayload buffer buflen).length * 8 - (huffDict buffer).getD 0 0))
  rw [← hsplit, decodeBits_fail_append _ _ _ _ _ _ hfail]

/-- Witness for c2_null_child_stops_and_reports on the null-child fixture:
the very first payload bit has no child, so the decode emits nothing and
returns ESP_OK. -/
theorem c2_null_child_stops_and_reports_witness :
    (1 ≤ 8 ∧ 3 + dictLen blkNullChild ≤ 8 ∧ 8 ≤ blkNullChild.length ∧
      dictLen blkNullChild ≠ 0 ∧ 8 - 3 - dictLen blkNullChild ≠ 0) ∧
    decodeBits (buildTree (parseTriples ((huffDict blkNullChild).drop 1)))
      (buildTree (parseTriples ((huffDict blkNullChild).drop 1)))
      ((extractBits (huffPayload blkNullChild 8)
        ((huffPayload blkNullChild 8).length * 8
          - (huffDict blkNullChild).getD 0 0)).take 1) [] = ([], false) ∧
    gfx_aaf_huffman_decode blkNullChild 8 = (.ok, [], false) :=
  ⟨⟨by decide, by decide, by decide, by decide, by decide⟩, by decide,
    c2_null_child_stops_and_reports blkNullChild 8 1 [] (by decide) (by decide)
      (by decide) (by decide) (by decide) (by decide)⟩

/-- followPath through a null node is null. -/
theorem followPath_none (p : List Bool) : followPath none p = none := by
  cases p <;> rfl

/-- followPath distributes over path concatenation. -/
theorem followPath_append :
    ∀ (p : List Bool) (o : Option HNode) (q : List Bool),
    followPath o (p ++ q) = followPath (followPath o p) q := by
  intro p
  induction p with
  | nil =>
    intro o q
    cases o with
    | none => simp [followPath_none]
    | some n => rfl
  | cons b bs ih =>
    intro o q
    cases o with
    | none => simp [followPath_none]
    | some n =>
      rw [List.cons_append]
      show followPath (if b then n.right else n.left) (bs ++ q) = _
      rw [ih]
      rfl

/-- Stepping one bit from a node. -/
theorem followPath_cons (n : HNode) (b : Bool) (bs : List Bool) :
    followPath (some n) (b :: bs)
      = followPath (if b then n.right else n.left) bs := rfl

/-- A successful walk from a node passes through an existing child. -/
theorem followPath_some_child (n : HNode) (b : Bool) (bs : List Bool)
    (m : HNode) (h : followPath (some n) (b :: bs) = some m) :
    ∃ c, (if b then n.right else n.left) = some c ∧
      followPath (some c) bs = some m := by
  rw [followPath_cons] at h
  cases hc : (if b then n.right else n.left) with
  | none => rw [hc, followPath_none] at h; cases h
  | some c => rw [hc] at h; exact ⟨c, rfl, h⟩

/-- No node of a fresh calloc node is a leaf. -/
theorem followPath_create_node (p : List Bool) (n : HNode)
    (h : followPath (some create_node) p = some n) : n.is_leaf = false := by
  cases p with
  | nil =>
    cases h
    rfl
  | cons b bs =>
    rw [followPath_cons] at h
    have hchild : (if b then create_node.right else create_node.left)
        = (none : Option HNode) := by cases b <;> rfl
    rw [hchild, followPath_none] at h
    cases h

/-- Inserting a code makes its end node a leaf holding the value. -/
theorem followPath_insert_self :
    ∀ (bs : List Bool) (t : HNode) (v : Nat),
    ∃ l r, followPath (some (insertCode t bs v)) bs = some (.mk l r true v) := by
  intro bs
  induction bs with
  | nil =>
    intro t v
    obtain ⟨l, r, f, v0⟩ := t
    exact ⟨l, r, rfl⟩
  | cons b rest ih =>
    intro t v
    obtain ⟨l, r, f, v0⟩ := t
    cases b with
    | true =>
      obtain ⟨l2, r2, hfr⟩ := ih (r.getD create_node) v
      exact ⟨l2, r2, by
        show followPath (some (insertCode (HNode.mk l r f v0) (true :: rest) v))
          (true :: rest) = _
        simp only [insertCode, if_pos rfl]
        rw [followPath_cons]
        exact hfr⟩
    | false =>
      obtain ⟨l2, r2, hfr⟩ := ih (l.getD create_node) v
      exact ⟨l2, r2, by
        simp only [insertCode, if_neg Bool.false_ne_true]
        rw [followPath_cons]
        exact hfr⟩

/-- Inserting a code along one path preserves the leaf flag and value of the
node at any other existing path. -/
theorem followPath_insert_ne :
    ∀ (qp : List Bool) (t : HNode) (v : Nat) (p : List Bool) (n0 : HNode),
    p ≠ qp → followPath (some t) p = some n0 →
    ∃ n1, followPath (some (insertCode t qp v)) p = some n1 ∧
      n1.is_leaf = n0.is_leaf ∧ n1.value = n0.value := by
  intro qp
  induction qp with
  | nil =>
    intro t v p n0 hne h
    obtain ⟨l, r, f, v0⟩ := t
    cases p with
    | nil => exact absurd rfl hne
    | cons b bs =>
      refine ⟨n0, ?_, rfl, rfl⟩
      rw [followPath_cons] at h
      simp only [insertCode]
      rw [followPath_cons]
      cases b
      · simpa [HNode.left] using h
      · simpa [HNode.right] using h
  | cons qb qbs ih =>
    intro t v p n0 hne h
    obtain ⟨l, r, f, v0⟩ := t
    cases p with
    | nil =>
      have h2 : some (HNode.mk l r f v0) = some n0 := h
      obtain rfl : HNode.mk l r f v0 = n0 := by
        injection h2
      simp only [insertCode]
      cases qb
      · exact ⟨_, rfl, rfl, rfl⟩
      · exact ⟨_, rfl, rfl, rfl⟩
    | cons b bs =>
      rw [followPath_cons] at h
      by_cases hbq : b = qb
      · subst hbq
        cases b
        · -- both go left
          rw [if_neg Bool.false_ne_true] at h
          simp only [HNode.left] at h
          cases hl2 : l with
          | none => rw [hl2, followPath_none] at h; cases h
          | some cn =>
            rw [hl2] at h
            have hbs : bs ≠ qbs := fun hh => hne (by rw [hh])
            obtain ⟨n1, hf, hfl, hv⟩ := ih cn v bs n0 hbs h
            refine ⟨n1, ?_, hfl, hv⟩
            simp only [insertCode, if_neg Bool.false_ne_true]
            rw [followPath_cons]
            simp only [HNode.left, hl2, Option.getD_some]
            exact hf
        · -- both go right
          rw [if_pos rfl] at h
          simp only [HNode.right] at h
          cases hr2 : r with
          | none => rw [hr2, followPath_none] at h; cases h
          | some cn =>
            rw [hr2] at h
            have hbs : bs ≠ qbs := fun hh => hne (by rw [hh])
            obtain ⟨n1, hf, hfl, hv⟩ := ih cn v bs n0 hbs h
            refine ⟨n1, ?_, hfl, hv⟩
            simp only [insertCode, if_pos rfl]
            rw [followPath_cons]
            simp only [HNode.right, hr2, Option.getD_some]
            exact hf
      · refine ⟨n0, ?_, rfl, rfl⟩
        simp only [insertCode]
        cases b
        · -- p goes left, insertion goes right
          have hqb : qb = true := by
            cases qb
            · exact absurd rfl hbq
            · rfl
          subst hqb
          simp only [if_pos rfl]
          rw [followPath_cons]
          simpa [HNode.left] using h
        · -- p goes right, insertion goes left
          have hqb : qb = false := by
            cases qb
            · rfl
            · exact absurd rfl hbq
          subst hqb
          simp only [if_neg Bool.false_ne_true]
          rw [followPath_cons]
          simpa [HNode.right] using h

/-- After inserting a code, any leaf is either at the inserted path or was
already a leaf with the same value before the insertion. -/
theorem insert_leaf_positions :
    ∀ (qp : List Bool) (t : HNode) (v : Nat) (p : List Bool) (n : HNode),
    followPath (some (insertCode t qp v)) p = some n → n.is_leaf = true →
    p = qp ∨ ∃ n0, followPath (some t) p = some n0 ∧ n0.is_leaf = true ∧
      n0.value = n.value := by
  intro qp
  induction qp with
  | nil =>
    intro t v p n h hleaf
    obtain ⟨l, r, f, v0⟩ := t
    cases p with
    | nil => exact Or.inl rfl
    | cons b bs =>
      refine Or.inr ⟨n, ?_, hleaf, rfl⟩
      simp only [insertCode] at h
      rw [followPath_cons] at h
      rw [followPath_cons]
      cases b
      · simpa [HNode.left] using h
      · simpa [HNode.right] using h
  | cons qb qbs ih =>
    intro t v p n h hleaf
    obtain ⟨l, r, f, v0⟩ := t
    cases p with
    | nil =>
      refine Or.inr ?_
      simp only [insertCode] at h
      have hn : n.is_leaf = f ∧ n.value = v0 := by
        cases qb
        · rw [if_neg Bool.false_ne_true] at h
          have h2 : some (HNode.mk
              (some (insertCode (l.getD create_node) qbs v)) r f v0)
              = some n := h
          obtain rfl := Option.some.inj h2
          exact ⟨rfl, rfl⟩
        · rw [if_pos rfl] at h
          have h2 : some (HNode.mk l
              (some (insertCode (r.getD create_node) qbs v)) f v0)
              = some n := h
          obtain rfl := Option.some.inj h2
          exact ⟨rfl, rfl⟩
      exact ⟨HNode.mk l r f v0, rfl, by rw [← hn.1]; exact hleaf,
        by rw [hn.2]; rfl⟩
    | cons b bs =>
      rw [followPath_cons] at h
      simp only [insertCode] at h
      by_cases hbq : b = qb
      · subst hbq
        cases b
        · -- both go left: the walk enters the inserted subtree
          rw [if_neg Bool.false_ne_true, if_neg Bool.false_ne_true] at h
          simp only [HNode.left] at h
          rcases ih (l.getD create_node) v bs n h hleaf with
            heq | ⟨n0, hf0, hl0, hv0⟩
          · exact Or.inl (by rw [heq])
          · cases hl2 : l with
            | none =>
              rw [hl2] at hf0
              simp only [Option.getD_none] at hf0
              have hfresh := followPath_create_node bs n0 hf0
              rw [hfresh] at hl0
              cases hl0
            | some cn =>
              rw [hl2] at hf0
              simp only [Option.getD_some] at hf0
              refine Or.inr ⟨n0, ?_, hl0, hv0⟩
              rw [followPath_cons]
              simpa [HNode.left, hl2] using hf0
        · -- both go right
          rw [if_pos rfl, if_pos rfl] at h
          simp only [HNode.right] at h
          rcases ih (r.getD create_node) v bs n h hleaf with
            heq | ⟨n0, hf0, hl0, hv0⟩
          · exact Or.inl (by rw [heq])
          · cases hr2 : r with
            | none =>
              rw [hr2] at hf0
              simp only [Option.getD_none] at hf0
              have hfresh := followPath_create_node bs n0 hf0
              rw [hfresh] at hl0
              cases hl0
            | some cn =>
              rw [hr2] at hf0
              simp only [Option.getD_some] at hf0
              refine Or.inr ⟨n0, ?_, hl0, hv0⟩
              rw [followPath_cons]
              simpa [HNode.right, hr2] using hf0
      · refine Or.inr ⟨n, ?_, hleaf, rfl⟩
        rw [followPath_cons]
        cases b
        · have hqb : qb = true := by
            cases qb
            · exact absurd rfl hbq
            · rfl
          subst hqb
          simpa [HNode.left, HNode.right] using h
        · have hqb : qb = false := by
            cases qb
            · rfl
            · exact absurd rfl hbq
          subst hqb
          simpa [HNode.left, HNode.right] using h

/-- A node with a set leaf flag is a leaf node carrying its value. -/
theorem leaf_shape (n : HNode) (h : n.is_leaf = true) :
    ∃ l r, n = .mk l r true n.value := by
  obtain ⟨l, r, f, v0⟩ := n
  have hf : f = true := h
  exact ⟨l, r, by subst hf; rfl⟩

/-- sepPair is symmetric. -/
theorem sepPair_symm : Symmetric sepPair := fun _ _ h => ⟨h.2, h.1⟩

/-- Separated entries have different bit paths. -/
theorem sepPair_path_ne (e q : Nat × Nat × Nat) (h : sepPair e q) :
    pathOf e ≠ pathOf q := by
  intro heq
  exact h.1 (by rw [heq, List.take_length])

/-- A list equal to some take of another list equals the take of its own
length. -/
theorem eq_take_length_of_eq_take (pa pb : List Bool) (k : Nat)
    (h : pa = pb.take k) : pa = pb.take pa.length := by
  subst h
  rw [List.length_take]
  rcases Nat.le_total k pb.length with hle | hle
  · rw [Nat.min_eq_left hle]
  · rw [Nat.min_eq_right hle, List.take_length,
      List.take_of_length_le hle]

/-- Invariant of the tree-construction fold: after inserting the remaining
entries into a tree whose leaves are exactly the already-inserted entries,
the leaves are exactly all entries, provided the whole collection is
pairwise separated. -/
theorem buildTree_fold_inv :
    ∀ (rem done : List (Nat × Nat × Nat)) (t : HNode),
    (∀ e ∈ done, ∃ l r,
      followPath (some t) (pathOf e) = some (.mk l r true e.1)) →
    (∀ p n, followPath (some t) p = some n → n.is_leaf = true →
      ∃ e ∈ done, pathOf e = p ∧ e.1 = n.value) →
    (∀ q ∈ rem, ∀ e ∈ done, sepPair e q) →
    rem.Pairwise sepPair →
    (∀ e ∈ done ++ rem, ∃ l r,
      followPath
        (some (rem.foldl (fun t2 e2 => insertCode t2 (pathOf e2) e2.1) t))
        (pathOf e) = some (.mk l r true e.1)) ∧
    (∀ p n,
      followPath
        (some (rem.foldl (fun t2 e2 => insertCode t2 (pathOf e2) e2.1) t)) p
        = some n → n.is_leaf = true →
      ∃ e ∈ done ++ rem, pathOf e = p ∧ e.1 = n.value) := by
  intro rem
  induction rem with
  | nil =>
    intro done t hP1 hP2 _ _
    constructor
    · intro e he
      exact hP1 e (by simpa using he)
    · intro p n hf hl
      obtain ⟨e, he, h1, h2⟩ := hP2 p n hf hl
      exact ⟨e, by simpa using he, h1, h2⟩
  | cons q rem2 ih =>
    intro done t hP1 hP2 hcross hpw
    have hP1q : ∀ e ∈ done ++ [q], ∃ l r,
        followPath (some (insertCode t (pathOf q) q.1)) (pathOf e)
          = some (.mk l r true e.1) := by
      intro e he
      rcases List.mem_append.mp he with hd | hq
      · obtain ⟨l, r, hfe⟩ := hP1 e hd
        have hne : pathOf e ≠ pathOf q :=
          sepPair_path_ne e q (hcross q (List.mem_cons_self q rem2) e hd)
        obtain ⟨n1, hf1, hl1, hv1⟩ :=
          followPath_insert_ne (pathOf q) t q.1 (pathOf e)
            (.mk l r true e.1) hne hfe
        have hleaf1 : n1.is_leaf = true := by rw [hl1]; rfl
        have hval1 : n1.value = e.1 := by rw [hv1]; rfl
        obtain ⟨l2, r2, hshape⟩ := leaf_shape n1 hleaf1
        refine ⟨l2, r2, ?_⟩
        rw [hf1, hshape, hval1]
      · obtain rfl : e = q := by simpa using hq
        exact followPath_insert_self (pathOf e) t e.1
    have hP2q : ∀ p n,
        followPath (some (insertCode t (pathOf q) q.1)) p = some n →
        n.is_leaf = true →
        ∃ e ∈ done ++ [q], pathOf e = p ∧ e.1 = n.value := by
      intro p n hf hl
      rcases insert_leaf_positions (pathOf q) t q.1 p n hf hl with
        heq | ⟨n0, hf0, hl0, hv0⟩
      · subst heq
        obtain ⟨l2, r2, hfs⟩ := followPath_insert_self (pathOf q) t q.1
        rw [hfs] at hf
        obtain rfl := Option.some.inj hf
        exact ⟨q, by simp, rfl, rfl⟩
      · obtain ⟨e, he, hpe, hve⟩ := hP2 p n0 hf0 hl0
        exact ⟨e, List.mem_append_left [q] he, hpe, by rw [hve, hv0]⟩
    have hcross2 : ∀ q2 ∈ rem2, ∀ e ∈ done ++ [q], sepPair e q2 := by
      intro q2 hq2 e he
      rcases List.mem_append.mp he with hd | hq
      · exact hcross q2 (List.mem_cons_of_mem q hq2) e hd
      · obtain rfl : e = q := by simpa using hq
        exact (List.pairwise_cons.mp hpw).1 q2 hq2
    have hpw2 : rem2.Pairwise sepPair := (List.pairwise_cons.mp hpw).2
    have hres := ih (done ++ [q]) (insertCode t (pathOf q) q.1)
      hP1q hP2q hcross2 hpw2
    rw [List.foldl_cons]
    constructor
    · intro e he
      refine hres.1 e ?_
      simpa [List.append_assoc] using he
    · intro p n hf hl
      obtain ⟨e, he, hpe, hve⟩ := hres.2 p n hf hl
      refine ⟨e, ?_, hpe, hve⟩
      simpa [List.append_assoc] using he

/-- The tree built from a pairwise separated table has a leaf with the right
value at the end of every code path, and no leaf strictly inside a code
path. -/
theorem buildTree_good (tbl : List (Nat × Nat × Nat))
    (hsep : codesSeparated tbl) :
    (∀ e ∈ tbl, ∃ l r,
      followPath (some (buildTree tbl)) (pathOf e)
        = some (.mk l r true e.1)) ∧
    (∀ e ∈ tbl, ∀ k, 0 < k → k < (pathOf e).length →
      ∃ m, followPath (some (buildTree tbl)) ((pathOf e).take k) = some m ∧
        m.is_leaf = false) := by
  have hbt : buildTree tbl
      = tbl.foldl (fun t2 e2 => insertCode t2 (pathOf e2) e2.1) create_node :=
    rfl
  have hinv := buildTree_fold_inv tbl [] create_node
    (by intro e he; cases he)
    (by intro p n hf hl
        have hfr := followPath_create_node p n hf
        rw [hfr] at hl
        cases hl)
    (by intro q _ e he; cases he)
    hsep
  rw [← hbt] at hinv
  simp only [List.nil_append] at hinv
  refine ⟨hinv.1, ?_⟩
  intro e he k hk0 hklen
  obtain ⟨l, r, hfe⟩ := hinv.1 e he
  have hsplit : pathOf e = (pathOf e).take k ++ (pathOf e).drop k :=
    (List.take_append_drop k _).symm
  rw [hsplit, followPath_append] at hfe
  cases hm : followPath (some (buildTree tbl)) ((pathOf e).take k) with
  | none => rw [hm, followPath_none] at hfe; cases hfe
  | some m =>
    refine ⟨m, rfl, ?_⟩
    by_contra hleafm
    have hleaf : m.is_leaf = true := by
      cases h2 : m.is_leaf
      · exact absurd h2 hleafm
      · rfl
    obtain ⟨e2, he2, hpe2, _⟩ := hinv.2 ((pathOf e).take k) m hm hleaf
    have hne : e2 ≠ e := by
      intro heq
      subst heq
      have hlen2 := congrArg List.length hpe2
      rw [List.length_take] at hlen2
      omega
    have hsp : sepPair e2 e := List.Pairwise.forall sepPair_symm hsep he2 he hne
    exact hsp.1 (eq_take_length_of_eq_take (pathOf e2) (pathOf e) k hpe2)

/-- Decoding one full code path from the root emits exactly the leaf value
and continues at the root: the walk stays on internal nodes until the final
bit reaches the leaf. -/
theorem decodeBits_code (root : HNode) :
    ∀ (cp : List Bool) (cur : HNode) (v : Nat) (rest : List Bool)
      (acc : List Nat),
    cp ≠ [] →
    (∀ k, 0 < k → k < cp.length →
      ∃ m, followPath (some cur) (cp.take k) = some m ∧ m.is_leaf = false) →
    (∃ l r, followPath (some cur) cp = some (.mk l r true v)) →
    decodeBits root cur (cp ++ rest) acc
      = decodeBits root root rest (acc ++ [v]) := by
  intro cp
  induction cp with
  | nil => intro cur v rest acc hne _ _; exact absurd rfl hne
  | cons b cp2 ih =>
    intro cur v rest acc _ hmid hend
    obtain ⟨l, r, hfe⟩ := hend
    cases cp2 with
    | nil =>
      obtain ⟨c, hc, hfc⟩ := followPath_some_child cur b [] _ hfe
      have hcel : c = HNode.mk l r true v := by
        have h2 : some c = some (HNode.mk l r true v) := hfc
        exact Option.some.inj h2
      subst hcel
      rw [List.cons_append, List.nil_append,
        decodeBits_cons_some root cur b rest acc _ hc]
      rw [if_pos (show (HNode.mk l r true v).is_leaf = true from rfl)]
      rfl
    | cons b2 cp3 =>
      obtain ⟨m, hfm, hml⟩ := hmid 1 Nat.one_pos (by simp)
      obtain ⟨c, hc, hfc⟩ := followPath_some_child cur b [] _ hfm
      have hcel : c = m := by
        have h2 : some c = some m := hfc
        exact Option.some.inj h2
      subst hcel
      rw [List.cons_append, decodeBits_cons_some root cur b
        ((b2 :: cp3) ++ rest) acc c hc, if_neg (by rw [hml]; simp)]
      refine ih c v rest acc (by simp) ?_ ?_
      · intro k hk0 hklen
        obtain ⟨m2, hfm2, hml2⟩ := hmid (k + 1) (by omega) (by simpa using hklen)
        refine ⟨m2, ?_, hml2⟩
        have hstep : (b :: b2 :: cp3).take (k + 1) = b :: (b2 :: cp3).take k :=
          rfl
        rw [hstep] at hfm2
        obtain ⟨c2, hc2, hfc2⟩ := followPath_some_child cur b _ _ hfm2
        rw [hc] at hc2
        obtain rfl := Option.some.inj hc2
        exact hfc2
      · obtain ⟨c2, hc2, hfc2⟩ := followPath_some_child cur b _ _ hfe
        rw [hc] at hc2
        obtain rfl := Option.some.inj hc2
        exact ⟨l, r, hfc2⟩

/-- Decoding the concatenated code bits of a message from the root emits the
message bytes in order and leaves the decoder at the root for the rest of
the stream. -/
theorem decodeBits_msg (root : HNode) (tbl : List (Nat × Nat × Nat))
    (hgood1 : ∀ e ∈ tbl, ∃ l r,
      followPath (some root) (pathOf e) = some (.mk l r true e.1))
    (hgood2 : ∀ e ∈ tbl, ∀ k, 0 < k → k < (pathOf e).length →
      ∃ m, followPath (some root) ((pathOf e).take k) = some m ∧
        m.is_leaf = false)
    (hlen : ∀ e ∈ tbl, 1 ≤ e.2.1) :
    ∀ (msg : List Nat), (∀ b ∈ msg, (lookupCode tbl b).isSome) →
    ∀ (rest : List Bool) (acc : List Nat),
    decodeBits root root (msgBits tbl msg ++ rest) acc
      = decodeBits root root rest (acc ++ msg) := by
  intro msg
  induction msg with
  | nil => intro _ rest acc; simp [msgBits]
  | cons b msg2 ih =>
    intro hmsg rest acc
    have hb := hmsg b (List.mem_cons_self b msg2)
    cases hfind : tbl.find? (fun e => e.1 == b) with
    | none =>
      have hlc : lookupCode tbl b = none := by
        unfold lookupCode
        rw [hfind]
      rw [hlc] at hb
      cases hb
    | some e0 =>
      have hlc : lookupCode tbl b = some (e0.2.1, e0.2.2) := by
        unfold lookupCode
        rw [hfind]
      have he0 : e0 ∈ tbl := List.mem_of_find?_eq_some hfind
      have hval : e0.1 = b := by
        have hp := List.find?_some hfind
        simpa using hp
      have hclen : (pathOf e0).length = e0.2.1 := by
        simp [pathOf, codePath]
      have hmb : msgBits tbl (b :: msg2) = pathOf e0 ++ msgBits tbl msg2 := by
        show (match lookupCode tbl b with
          | some lc => codePath lc.1 lc.2
          | none => []) ++ msgBits tbl msg2 = pathOf e0 ++ msgBits tbl msg2
        rw [hlc]
        rfl
      rw [hmb, List.append_assoc]
      rw [decodeBits_code root (pathOf e0) root e0.1
        (msgBits tbl msg2 ++ rest) acc
        (by
          intro hnil
          rw [hnil] at hclen
          have hge := hlen e0 he0
          simp at hclen
          omega)
        (hgood2 e0 he0) (hgood1 e0 he0)]
      rw [hval]
      rw [ih (fun b2 hb2 => hmsg b2 (List.mem_cons_of_mem _ hb2)) rest
        (acc ++ [b])]
      congr 1
      simp

/-- Or of a shifted accumulator with a byte is plain positional addition. -/
theorem lor_eq_add_of_lt (a d : Nat) (h : d < 256) :
    (a <<< 8) ||| d = a * 256 + d := by
  rw [Nat.shiftLeft_eq]
  have h3 := Nat.mul_add_lt_is_or (show d < 2 ^ 8 by omega) a
  have h2 : (2 : Nat) ^ 8 = 256 := by norm_num
  rw [h2] at h3
  rw [show a * 256 = 256 * a from Nat.mul_comm a 256]
  exact h3.symm

/-- Length of the big-endian code byte serialization. -/
theorem codeBytesAux_length : ∀ (nb code : Nat),
    (codeBytesAux nb code).length = nb := by
  intro nb
  induction nb with
  | zero => intro code; rfl
  | succ nb ih => intro code; simp [codeBytesAux, ih]

/-- The shift-or fold of the parser reconstructs the code value from its
big-endian byte serialization. -/
theorem foldl_lor_codeBytesAux : ∀ (nb a code : Nat), code < 256 ^ nb →
    (codeBytesAux nb code).foldl (fun x b => (x <<< 8) ||| b) a
      = a * 256 ^ nb + code := by
  intro nb
  induction nb with
  | zero =>
    intro a code h
    simp only [codeBytesAux, List.foldl_nil]
    omega
  | succ nb ih =>
    intro a code h
    simp only [codeBytesAux, List.foldl_cons]
    have hlt : code / 256 ^ nb < 256 := by
      apply Nat.div_lt_of_lt_mul
      calc code < 256 ^ (nb + 1) := h
        _ = 256 ^ nb * 256 := by rw [Nat.pow_succ]
    have hd : (code / 256 ^ nb) % 256 = code / 256 ^ nb :=
      Nat.mod_eq_of_lt hlt
    rw [hd, lor_eq_add_of_lt a (code / 256 ^ nb) hlt]
    rw [ih (a * 256 + code / 256 ^ nb) (code % 256 ^ nb)
      (Nat.mod_lt _ (Nat.pos_pow_of_pos nb (by omega)))]
    have hdm := Nat.div_add_mod code (256 ^ nb)
    calc (a * 256 + code / 256 ^ nb) * 256 ^ nb + code % 256 ^ nb
        = a * (256 ^ nb * 256) + (256 ^ nb * (code / 256 ^ nb)
            + code % 256 ^ nb) := by ring
      _ = a * 256 ^ (nb + 1) + code := by rw [hdm, Nat.pow_succ]

/-- Parsing the serialized table reconstructs the table exactly, whenever
the codes fit their declared bit lengths. -/
theorem parse_serialize (tbl : List (Nat × Nat × Nat))
    (hcode : ∀ e ∈ tbl, e.2.2 < 2 ^ e.2.1) :
    ∀ fuel, (serializeTriples tbl).length ≤ fuel →
    parseTriplesF fuel (serializeTriples tbl) = tbl := by
  induction tbl with
  | nil => intro fuel _; cases fuel <;> rfl
  | cons e t ih =>
    obtain ⟨v, len, code⟩ := e
    intro fuel hfuel
    have hser : serializeTriples ((v, len, code) :: t)
        = v :: len :: (codeBytes len code ++ serializeTriples t) := rfl
    have hcb_len : (codeBytes len code).length = (len + 7) / 8 :=
      codeBytesAux_length _ _
    rw [hser] at hfuel ⊢
    cases fuel with
    | zero => simp at hfuel
    | succ f =>
      simp only [parseTriplesF]
      rw [List.take_left' hcb_len, List.drop_left' hcb_len]
      have hclt : code < 256 ^ ((len + 7) / 8) := by
        calc code < 2 ^ len := hcode (v, len, code) (List.mem_cons_self _ _)
          _ ≤ 2 ^ (8 * ((len + 7) / 8)) :=
            Nat.pow_le_pow_right (by omega) (by omega)
          _ = 256 ^ ((len + 7) / 8) := by
            rw [Nat.pow_mul]
      have hfold := foldl_lor_codeBytesAux ((len + 7) / 8) 0 code hclt
      rw [show codeBytes len code = codeBytesAux ((len + 7) / 8) code from rfl,
        hfold]
      rw [ih (fun e2 he2 => hcode e2 (List.mem_cons_of_mem _ he2)) f
        (by
          have hlen2 : (v :: len :: (codeBytes len code
              ++ serializeTriples t)).length
              = 2 + (len + 7) / 8 + (serializeTriples t).length := by
            simp [hcb_len]
            try omega
          omega)]
      simp

/-- getD of an append below the length of the first part. -/
theorem getD_append_lt {α : Type} (l1 l2 : List α) (i : Nat) (d : α)
    (h : i < l1.length) : (l1 ++ l2).getD i d = l1.getD i d := by
  rw [List.getD_eq_getElem?_getD, List.getD_eq_getElem?_getD,
    List.getElem?_append_left h]

/-- getD of a take below the taken count. -/
theorem getD_take_lt {α : Type} (l : List α) (n i : Nat) (d : α) (h : i < n) :
    (l.take n).getD i d = l.getD i d := by
  rw [List.getD_eq_getElem?_getD, List.getD_eq_getElem?_getD,
    List.getElem?_take_of_lt h]

/-- getD through a drop, for any element type. -/
theorem getD_drop_any {α : Type} (l : List α) (n k : Nat) (d : α) :
    (l.drop n).getD k d = l.getD (n + k) d := by
  rw [List.getD_eq_getElem?_getD, List.getD_eq_getElem?_getD,
    List.getElem?_drop]

set_option maxRecDepth 8000 in
/-- Extracting bit r (most significant first) from a byte packed from 8 bits
recovers the r-th bit. -/
theorem byteOfBits_bit_len (bs : List Bool) (h8 : bs.length = 8) (r : Nat)
    (hr : r < 8) :
    (((byteOfBits bs >>> (7 - r)) &&& 1) == 1) = bs.getD r false := by
  rcases bs with _ | ⟨b0, bs⟩
  · simp at h8
  rcases bs with _ | ⟨b1, bs⟩
  · simp at h8
  rcases bs with _ | ⟨b2, bs⟩
  · simp at h8
  rcases bs with _ | ⟨b3, bs⟩
  · simp at h8
  rcases bs with _ | ⟨b4, bs⟩
  · simp at h8
  rcases bs with _ | ⟨b5, bs⟩
  · simp at h8
  rcases bs with _ | ⟨b6, bs⟩
  · simp at h8
  rcases bs with _ | ⟨b7, bs⟩
  · simp at h8
  have hnil : bs = [] := List.eq_nil_of_length_eq_zero
    (by simp only [List.length_cons] at h8; omega)
  subst hnil
  clear h8
  revert hr
  revert r
  revert b0 b1 b2 b3 b4 b5 b6 b7
  decide

/-- Length of the packed byte stream. -/
theorem packBitsF_length : ∀ (fuel : Nat) (bits : List Bool),
    bits.length ≤ fuel →
    (packBitsF fuel bits).length = (bits.length + 7) / 8 := by
  intro fuel
  induction fuel with
  | zero =>
    intro bits h
    have hnil : bits = [] := List.eq_nil_of_length_eq_zero (by omega)
    subst hnil
    rfl
  | succ f ih =>
    intro bits h
    cases bits with
    | nil => rfl
    | cons b bs =>
      simp only [packBitsF, List.length_cons]
      rw [ih ((b :: bs).drop 8)
        (by simp only [List.length_drop, List.length_cons] at h ⊢; omega)]
      simp only [List.length_drop, List.length_cons]
      omega

/-- Bit i of the packed stream is bit i of the source bit list. -/
theorem packBitsF_bitAt : ∀ (fuel : Nat) (bits : List Bool),
    bits.length ≤ fuel → ∀ i, i < bits.length →
    bitAt (packBitsF fuel bits) i = bits.getD i false := by
  intro fuel
  induction fuel with
  | zero => intro bits h i hi; omega
  | succ f ih =>
    intro bits h i hi
    cases bits with
    | nil => simp at hi
    | cons b bs =>
      simp only [packBitsF]
      have hcplen : ((b :: bs).take 8
          ++ List.replicate (8 - ((b :: bs).take 8).length) false).length
          = 8 := by
        rw [List.length_append, List.length_replicate, List.length_take]
        have : min 8 (b :: bs).length ≤ 8 := Nat.min_le_left _ _
        omega
      by_cases hi8 : i < 8
      · unfold bitAt
        have hdiv : i / 8 = 0 := Nat.div_eq_of_lt hi8
        have hmod : i % 8 = i := Nat.mod_eq_of_lt hi8
        rw [hdiv, hmod]
        have hg : (byteOfBits ((b :: bs).take 8
              ++ List.replicate (8 - ((b :: bs).take 8).length) false)
              :: packBitsF f ((b :: bs).drop 8)).getD 0 0
            = byteOfBits ((b :: bs).take 8
              ++ List.replicate (8 - ((b :: bs).take 8).length) false) := rfl
        rw [hg, byteOfBits_bit_len _ hcplen i hi8]
        have hc1 : i < ((b :: bs).take 8).length := by
          rw [List.length_take]
          omega
        rw [getD_append_lt _ _ i false hc1, getD_take_lt _ 8 i false hi8]
      · unfold bitAt
        have hdiv : i / 8 = (i - 8) / 8 + 1 := by omega
        have hmod : i % 8 = (i - 8) % 8 := by omega
        rw [hdiv, hmod]
        have hg : (byteOfBits ((b :: bs).take 8
              ++ List.replicate (8 - ((b :: bs).take 8).length) false)
              :: packBitsF f ((b :: bs).drop 8)).getD ((i - 8) / 8 + 1) 0
            = (packBitsF f ((b :: bs).drop 8)).getD ((i - 8) / 8) 0 := rfl
        rw [hg]
        have hrec := ih ((b :: bs).drop 8)
          (by simp only [List.length_drop, List.length_cons] at h ⊢; omega)
          (i - 8)
          (by simp only [List.length_drop, List.length_cons] at hi ⊢; omega)
        unfold bitAt at hrec
        rw [hrec, getD_drop_any _ 8 (i - 8) false,
          show 8 + (i - 8) = i by omega]

/-- The bit sequence the decoder visits over a packed payload is exactly the
source bit list. -/
theorem extractBits_packBits (bits : List Bool) :
    extractBits (packBits bits) bits.length = bits := by
  unfold extractBits
  apply List.ext_getElem
  · simp
  · intro i h1 h2
    rw [List.getElem_map, List.getElem_range]
    unfold packBits
    rw [packBitsF_bitAt bits.length bits (Nat.le_refl _) i h2]
    rw [List.getD_eq_getElem?_getD, List.getElem?_eq_getElem h2]
    rfl

/-- The declared padding removes exactly the filler bits of the final packed
byte. -/
theorem total_bits_eq (n : Nat) : (n + 7) / 8 * 8 - padCount n = n := by
  unfold padCount
  omega

/-- A nonempty message under a table of positive code lengths has a nonempty
bit stream. -/
theorem msgBits_length_pos (tbl : List (Nat × Nat × Nat))
    (hlen : ∀ e ∈ tbl, 1 ≤ e.2.1) (b : Nat) (msg2 : List Nat)
    (hb : (lookupCode tbl b).isSome) :
    0 < (msgBits tbl (b :: msg2)).length := by
  cases hfind : tbl.find? (fun e => e.1 == b) with
  | none =>
    unfold lookupCode at hb
    rw [hfind] at hb
    cases hb
  | some e0 =>
    have he0 : e0 ∈ tbl := List.mem_of_find?_eq_some hfind
    have hlc : lookupCode tbl b = some (e0.2.1, e0.2.2) := by
      unfold lookupCode
      rw [hfind]
    have hmb : msgBits tbl (b :: msg2)
        = codePath e0.2.1 e0.2.2 ++ msgBits tbl msg2 := by
      show (match lookupCode tbl b with
        | some lc => codePath lc.1 lc.2
        | none => []) ++ msgBits tbl msg2 = _
      rw [hlc]
    rw [hmb, List.length_append]
    have hcl : (codePath e0.2.1 e0.2.2).length = e0.2.1 := by simp [codePath]
    have hge := hlen e0 he0
    omega

/-- Claim C4: Huffman round-trip. For every prefix-free value-to-code table
(codes of positive length fitting their declared bit widths) serialized as
(value, code length, big-endian code bytes) triples, and every byte sequence
whose bytes all have codes, decoding the most-significant-bit-first packed
payload (with its declared padding count, 0 to 7, in the dictionary header
byte) against the serialized table reproduces the byte sequence exactly and
completes without running off the tree; the padding bits are trimmed before
decoding and never decoded. -/
theorem c4_huffman_round_trip (tbl : List (Nat × Nat × Nat)) (msg : List Nat)
    (hlen : ∀ e ∈ tbl, 1 ≤ e.2.1)
    (hcode : ∀ e ∈ tbl, e.2.2 < 2 ^ e.2.1)
    (hsep : codesSeparated tbl)
    (hmsg : ∀ b ∈ msg, (lookupCode tbl b).isSome) :
    decode_huffman_data (packBits (msgBits tbl msg))
        (padCount (msgBits tbl msg).length :: serializeTriples tbl)
      = (msg, true) := by
  cases msg with
  | nil =>
    show decode_huffman_data (packBits []) _ = ([], true)
    rw [show packBits [] = [] from rfl]
    simp [decode_huffman_data]
  | cons b msg2 =>
    have hpos : 0 < (msgBits tbl (b :: msg2)).length :=
      msgBits_length_pos tbl hlen b msg2 (hmsg b (List.mem_cons_self b msg2))
    have hdlen : (packBits (msgBits tbl (b :: msg2))).length
        = ((msgBits tbl (b :: msg2)).length + 7) / 8 := by
      unfold packBits
      exact packBitsF_length _ _ (Nat.le_refl _)
    simp only [decode_huffman_data]
    rw [if_neg (by
      intro hor
      rcases hor with hd | hd
      · rw [hdlen] at hd
        omega
      · simp at hd)]
    have hgetpad : (padCount (msgBits tbl (b :: msg2)).length
        :: serializeTriples tbl).getD 0 0
        = padCount (msgBits tbl (b :: msg2)).length := rfl
    have hdrop : (padCount (msgBits tbl (b :: msg2)).length
        :: serializeTriples tbl).drop 1 = serializeTriples tbl := rfl
    rw [hgetpad, hdrop]
    have hparse : parseTriples (serializeTriples tbl) = tbl := by
      unfold parseTriples
      exact parse_serialize tbl hcode _ (Nat.le_refl _)
    rw [hparse]
    have htb : (packBits (msgBits tbl (b :: msg2))).length * 8
        - padCount (msgBits tbl (b :: msg2)).length
        = (msgBits tbl (b :: msg2)).length := by
      rw [hdlen]
      exact total_bits_eq _
    rw [htb, extractBits_packBits]
    have hgood := buildTree_good tbl hsep
    have hmain := decodeBits_msg (buildTree tbl) tbl hgood.1 hgood.2 hlen
      (b :: msg2) hmsg [] []
    rw [List.append_nil] at hmain
    rw [hmain]
    rfl

/-- Witness for c4_huffman_round_trip on the three-entry table (65 has code
0, 66 code 10, 67 code 11) and the message [66, 65, 67, 65]. -/
theorem c4_huffman_round_trip_witness :
    (∀ e ∈ tblRT, 1 ≤ e.2.1) ∧
    (∀ e ∈ tblRT, e.2.2 < 2 ^ e.2.1) ∧
    codesSeparated tblRT ∧
    (∀ b ∈ msgRT, (lookupCode tblRT b).isSome) ∧
    decode_huffman_data (packBits (msgBits tblRT msgRT))
        (padCount (msgBits tblRT msgRT).length :: serializeTriples tblRT)
      = (msgRT, true) :=
  ⟨by decide, by decide, by decide, by decide,
    c4_huffman_round_trip tblRT msgRT (by decide) (by decide) (by decide)
      (by decide)⟩
